import Mathlib

/-!
# Verification of the typography rule engine (figma-tt-typographer)

A shallow embedding of the plugin's core: the locale detector
(`src/core/detector.ts`), the protected-range finder and the rule engine
(`src/core/engine.ts`), the rule catalogs (`src/rules/...`), and theorems
about them.

Modelling conventions:
* Text is a `List Char` of Unicode code points.  JavaScript strings are
  UTF-16 code-unit sequences; every character produced or inspected by this
  code base lies in the Basic Multilingual Plane, where code units and code
  points (and hence all offsets) coincide.
* Each JavaScript regex `replace` call is implemented as a left-to-right
  scan that, at every subject position, either matches (emitting the
  replacement and continuing after the consumed match, as a `g`-flagged
  regex does) or copies one character.  Greedy/lazy quantifier and
  alternation-order behaviour of the concrete patterns is reproduced by
  the individual matcher functions.
* The detector's floating-point threshold comparisons (`x / t > 0.05` etc.)
  are modelled as exact rational comparisons by cross-multiplication.
-/

set_option maxRecDepth 8000

namespace TT

/-- JavaScript's `\s` class (WhiteSpace ∪ LineTerminator). -/
def jsSpace (c : Char) : Bool :=
  c = ' ' || c = '\t' || c = '\n' || c.val = 0x0B || c.val = 0x0C || c = '\r' ||
  c.val = 0xA0 || c.val = 0x1680 || (0x2000 ≤ c.val && c.val ≤ 0x200A) ||
  c.val = 0x2028 || c.val = 0x2029 || c.val = 0x202F || c.val = 0x205F ||
  c.val = 0x3000 || c.val = 0xFEFF

/-- JavaScript's `\w` class: `[A-Za-z0-9_]`. -/
def jsWord (c : Char) : Bool :=
  ('A' ≤ c && c ≤ 'Z') || ('a' ≤ c && c ≤ 'z') || ('0' ≤ c && c ≤ '9') || c = '_'

/-- JavaScript's `\d` class. -/
def jsDigit (c : Char) : Bool :=
  '0' ≤ c && c ≤ '9'

/-- A JavaScript `\b` word-boundary assertion between an optional previous
character and an optional next character (string edges count as non-word). -/
def jsBoundary (prev next : Option Char) : Bool :=
  (prev.elim false jsWord) != (next.elim false jsWord)

/-- Simple Unicode lowercase mapping for the scripts this code base touches
(Latin, Latin-1 letters, `Œ`, `Ÿ`, Cyrillic, `Ё`); models `toLowerCase` /
the `i` regex flag on those characters. -/
def jsToLower (c : Char) : Char :=
  if 'A' ≤ c && c ≤ 'Z' then Char.ofNat (c.toNat + 0x20)
  else if 0x410 ≤ c.val && c.val ≤ 0x42F then Char.ofNat (c.toNat + 0x20)
  else if c = 'Ё' then 'ё'
  else if (0xC0 ≤ c.val && c.val ≤ 0xDE) && c.val ≠ 0xD7 then Char.ofNat (c.toNat + 0x20)
  else if c = 'Œ' then 'œ'
  else if c = 'Ÿ' then 'ÿ'
  else c

/-- Simple Unicode uppercase mapping (inverse direction of `jsToLower`). -/
def jsToUpper (c : Char) : Char :=
  if 'a' ≤ c && c ≤ 'z' then Char.ofNat (c.toNat - 0x20)
  else if 0x430 ≤ c.val && c.val ≤ 0x44F then Char.ofNat (c.toNat - 0x20)
  else if c = 'ё' then 'Ё'
  else if (0xE0 ≤ c.val && c.val ≤ 0xFE) && c.val ≠ 0xF7 then Char.ofNat (c.toNat - 0x20)
  else if c = 'œ' then 'Œ'
  else if c = 'ÿ' then 'Ÿ'
  else c

/-- Case-insensitive character comparison (regex `i` flag). -/
def ciEq (a b : Char) : Bool :=
  jsToLower a = jsToLower b

/-- `String.prototype.trim` (both ends; JS trim strips the same set as `\s`). -/
def jsTrim (t : List Char) : List Char :=
  ((t.dropWhile jsSpace).reverse.dropWhile jsSpace).reverse

/-- `String.prototype.trimEnd`. -/
def jsTrimEnd (t : List Char) : List Char :=
  (t.reverse.dropWhile jsSpace).reverse

/-! ## Locale detector (`src/core/detector.ts`) -/

/-- Supported locale codes (`src/core/rule.ts`). -/
inductive Locale
  | ru | en | fr | zh | ja | common
deriving DecidableEq, Repr

/-- Character range counts for language detection. -/
structure CharCounts where
  cyrillic : Nat
  cjk : Nat
  hiraganaKatakana : Nat
  french : Nat
  latin : Nat
  total : Nat
deriving DecidableEq, Repr

/-- The detector's fixed set of French-specific diacritics and characters. -/
def frenchChars : List Char := "àâçéèêëïîôùûüÿœæÀÂÇÉÈÊËÏÎÔÙÛÜŸŒÆ".data

/-- One step of `countChars`' loop: bucket a character. -/
def bumpCount (counts : CharCounts) (c : Char) : CharCounts :=
  let code := c.toNat
  if 0x0400 ≤ code && code ≤ 0x04FF then
    { counts with cyrillic := counts.cyrillic + 1, total := counts.total + 1 }
  else if 0x4E00 ≤ code && code ≤ 0x9FFF then
    { counts with cjk := counts.cjk + 1, total := counts.total + 1 }
  else if 0x3040 ≤ code && code ≤ 0x30FF then
    { counts with hiraganaKatakana := counts.hiraganaKatakana + 1,
                  total := counts.total + 1 }
  else if c ∈ frenchChars then
    { counts with french := counts.french + 1, total := counts.total + 1 }
  else if (0x41 ≤ code && code ≤ 0x5A) || (0x61 ≤ code && code ≤ 0x7A) then
    { counts with latin := counts.latin + 1, total := counts.total + 1 }
  else counts

/-- Count characters by script category. -/
def countChars (text : List Char) : CharCounts :=
  text.foldl bumpCount ⟨0, 0, 0, 0, 0, 0⟩

/-- The detector's `/\s[;:!?]/.test(text)` check: some whitespace character
immediately followed by `;`, `:`, `!` or `?`. -/
def hasSpaceBeforePunct : List Char → Bool
  | c1 :: c2 :: rest =>
    (jsSpace c1 && (c2 = ';' || c2 = ':' || c2 = '!' || c2 = '?')) ||
      hasSpaceBeforePunct (c2 :: rest)
  | _ => false

/-- Detect the most likely language of the given text (`detectLocale`).
The float ratio thresholds `> 0.05`, `> 0.2`, `> 0.03` are modelled as the
exact rational comparisons `20·x > total`, `5·x > total`,
`100·fr > 3·(latin+fr)`. -/
def detectLocale (text : String) : Locale :=
  let counts := countChars text.data
  if counts.total = 0 then .en
  else if 20 * counts.hiraganaKatakana > counts.total then .ja
  else if 5 * counts.cjk > counts.total then .zh
  else if 5 * counts.cyrillic > counts.total then .ru
  else if 0 < counts.french ∧ 0 < counts.latin ∧
      100 * counts.french > 3 * (counts.latin + counts.french) then .fr
  else if hasSpaceBeforePunct text.data = true ∧ 0 < counts.latin then .fr
  else .en

/-! ## Generic scanning machinery -/

/-- Number of leading characters of `l` satisfying `p` (a maximal greedy
character-class run). -/
def countWhile (p : Char → Bool) (l : List Char) : Nat :=
  (l.takeWhile p).length

/-- One global-regex replacement pass (`text.replace(/…/g, …)`): at each
subject position either the matcher fires — emitting its replacement and
consuming `n ≥ 1` subject characters, after which scanning resumes past the
match — or one character is copied.  The matcher receives the previous
subject character (for lookbehind), the current offset, and the remaining
subject. -/
def gRepF (m : Option Char → Nat → List Char → Option (List Char × Nat)) :
    Nat → Option Char → Nat → List Char → List Char
  | 0, _, _, l => l
  | _ + 1, _, _, [] => []
  | fuel + 1, prev, pos, c :: rest =>
    match m prev pos (c :: rest) with
    | none => c :: gRepF m fuel (some c) (pos + 1) rest
    | some (rep, n) =>
      rep ++ gRepF m fuel (some ((((c :: rest).take n).getLastD c))) (pos + n)
        (rest.drop (n - 1))

/-- As every step consumes at least one subject character, `l.length` steps
always suffice. -/
def gRep (m : Option Char → Nat → List Char → Option (List Char × Nat))
    (prev : Option Char) (pos : Nat) (l : List Char) : List Char :=
  gRepF m l.length prev pos l

/-- A replacement pass whose matcher needs no lookbehind and no offset. -/
def gRepN (m : List Char → Option (List Char × Nat)) (t : List Char) : List Char :=
  gRep (fun _ _ l => m l) none 0 t

/-- `RegExp.exec` iteration for a `g` regex with non-empty matches: starting
at `pos`, return successive match spans `[start, end)`, resuming after each
match.  `fuel` only bounds the recursion; `t.length + 1` steps always
suffice. -/
def execLoop (m : List Char → Nat → Option Nat) (t : List Char) :
    Nat → Nat → List (Nat × Nat)
  | 0, _ => []
  | fuel + 1, pos =>
    match m t pos with
    | some n => (pos, pos + n) :: execLoop m t fuel (pos + n)
    | none => if pos < t.length then execLoop m t fuel (pos + 1) else []

/-- All match spans of a pattern over `t`. -/
def execPattern (m : List Char → Nat → Option Nat) (t : List Char) : List (Nat × Nat) :=
  execLoop m t (t.length + 1) 0

/-- The subject character before position `p` (`none` at the start). -/
def charBefore (t : List Char) (p : Nat) : Option Char :=
  if p = 0 then none else t[p-1]?

/-! ## Protected-range finder (`src/core/engine.ts`) -/

/-- Characters that end a URL body: the complement class `[^\s<>"'«»„]`
(the straight quote appears twice in the source class). -/
def urlStop (c : Char) : Bool :=
  jsSpace c || c = '<' || c = '>' || c = '"' || c = '\'' || c = '«' || c = '»' || c = '„'

/-- `https?:\/\/[^\s<>"'«»„]+` at position `p`. -/
def urlM (t : List Char) (p : Nat) : Option Nat :=
  let head? : Option (Nat × List Char) :=
    match t.drop p with
    | 'h' :: 't' :: 't' :: 'p' :: 's' :: ':' :: '/' :: '/' :: rest => some (8, rest)
    | 'h' :: 't' :: 't' :: 'p' :: ':' :: '/' :: '/' :: rest => some (7, rest)
    | _ => none
  match head? with
  | none => none
  | some (k, rest) =>
    let n := countWhile (fun c => !urlStop c) rest
    if n = 0 then none else some (k + n)

/-- The local-part class `[\w.+-]`. -/
def emailC1 (c : Char) : Bool := jsWord c || c = '.' || c = '+' || c = '-'

/-- The host class `[\w.-]`. -/
def emailC2 (c : Char) : Bool := jsWord c || c = '.' || c = '-'

/-- Backtracking of `[\w.-]+\.\w{2,}` after the `@`: try host-chunk lengths
from `k` down to `1`; a chunk of length `c` succeeds when the character at
index `c` is `.` and at least two word characters follow (the final `\w{2,}`
is greedy and nothing follows it).  Returns chunk + dot + word-run length. -/
def emailTail (s2 : List Char) : Nat → Option Nat
  | 0 => none
  | k + 1 =>
    let w := countWhile jsWord (s2.drop (k + 2))
    if s2[k+1]? = some '.' ∧ 2 ≤ w then some (k + 2 + w)
    else emailTail s2 k

/-- `[\w.+-]+@[\w.-]+\.\w{2,}` at position `p`. -/
def emailM (t : List Char) (p : Nat) : Option Nat :=
  let s := t.drop p
  let a := countWhile emailC1 s
  if a = 0 then none
  else
    match s.drop a with
    | '@' :: s2 =>
      match emailTail s2 (countWhile emailC2 s2) with
      | some m => some (a + 1 + m)
      | none => none
    | _ => none

/-- `\b\d{1,3}\.\d{1,3}\.\d{1,3}\.\d{1,3}\b` at position `p`.  With maximal
digit runs the only viable `{1,3}` choices take each entire run, so a match
requires four dot-separated runs of 1–3 digits with non-word context. -/
def ipM (t : List Char) (p : Nat) : Option Nat :=
  let s := t.drop p
  let r1 := countWhile jsDigit s
  let r2 := countWhile jsDigit (s.drop (r1 + 1))
  let r3 := countWhile jsDigit (s.drop (r1 + 1 + r2 + 1))
  let r4 := countWhile jsDigit (s.drop (r1 + 1 + r2 + 1 + r3 + 1))
  if ((charBefore t p).elim false jsWord) = false ∧
     1 ≤ r1 ∧ r1 ≤ 3 ∧ s[r1]? = some '.' ∧
     1 ≤ r2 ∧ r2 ≤ 3 ∧ s[r1+1+r2]? = some '.' ∧
     1 ≤ r3 ∧ r3 ≤ 3 ∧ s[r1+1+r2+1+r3]? = some '.' ∧
     1 ≤ r4 ∧ r4 ≤ 3 ∧
     (s[r1+1+r2+1+r3+1+r4]?.elim false jsWord) = false
  then some (r1 + 1 + r2 + 1 + r3 + 1 + r4) else none

/-- `\bv?\d+\.\d+\.\d+(?:\.\d+)?\b` at position `p`.  The optional fourth
component is kept only if its own trailing `\b` holds; otherwise the match
backtracks to end after the third run (where the following `.` satisfies
`\b`). -/
def verM (t : List Char) (p : Nat) : Option Nat :=
  let s := t.drop p
  let v : Nat := if s.head? = some 'v' then 1 else 0
  let s1 := s.drop v
  let r1 := countWhile jsDigit s1
  let r2 := countWhile jsDigit (s1.drop (r1 + 1))
  let r3 := countWhile jsDigit (s1.drop (r1 + 1 + r2 + 1))
  let e3 := r1 + 1 + r2 + 1 + r3
  let r4 := countWhile jsDigit (s1.drop (e3 + 1))
  if ((charBefore t p).elim false jsWord) = false ∧
     1 ≤ r1 ∧ s1[r1]? = some '.' ∧
     1 ≤ r2 ∧ s1[r1+1+r2]? = some '.' ∧ 1 ≤ r3 then
    if s1[e3]? = some '.' ∧ 1 ≤ r4 ∧ (s1[e3+1+r4]?.elim false jsWord) = false then
      some (v + e3 + 1 + r4)
    else if (s1[e3]?.elim false jsWord) = false then some (v + e3)
    else none
  else none

/-- The class `[0-9a-fA-F]`. -/
def hexDigitC (c : Char) : Bool :=
  jsDigit c || ('a' ≤ c && c ≤ 'f') || ('A' ≤ c && c ≤ 'F')

/-- `\b0x[0-9a-fA-F]+\b` at position `p`. -/
def hexM (t : List Char) (p : Nat) : Option Nat :=
  match t.drop p with
  | '0' :: 'x' :: rest =>
    let n := countWhile hexDigitC rest
    if ((charBefore t p).elim false jsWord) = false ∧ 1 ≤ n ∧
       (rest[n]?.elim false jsWord) = false
    then some (2 + n) else none
  | _ => none

/-- Stable insertion (by range start) used to model the engine's
`ranges.sort((a, b) => a[0] - b[0])`. -/
def insertRange (r : Nat × Nat) : List (Nat × Nat) → List (Nat × Nat)
  | [] => [r]
  | x :: xs => if r.1 ≤ x.1 then r :: x :: xs else x :: insertRange r xs

/-- Stable sort of ranges by start position. -/
def sortRanges : List (Nat × Nat) → List (Nat × Nat)
  | [] => []
  | x :: xs => insertRange x (sortRanges xs)

/-- Find all ranges in text that should not be transformed: every match span
of each protected pattern (URL, email, IPv4, version, hex), in pattern
order, then sorted by start position. -/
def findProtectedRanges (t : List Char) : List (Nat × Nat) :=
  sortRanges (execPattern urlM t ++ execPattern emailM t ++ execPattern ipM t ++
    execPattern verM t ++ execPattern hexM t)

/-- Check if a position falls within a protected range. -/
def isProtected (pos : Nat) (ranges : List (Nat × Nat)) : Bool :=
  ranges.any fun r => r.1 ≤ pos && pos < r.2

/-! ## Rule and settings data model (`src/core/rule.ts`) -/

/-- Context passed to each rule during execution. -/
structure RuleContext where
  locale : Locale
  protectedRanges : List (Nat × Nat)

/-- A single typography rule. -/
structure TypographyRule where
  id : String
  name : List (String × String)
  locale : Locale
  group : String
  enabled : Bool
  priority : Nat
  apply : List Char → RuleContext → List Char

/-- User settings read by the engine: the locale choice and the sparse
per-rule enable overrides (the optional `ai`/`balance`/`chatTimePadding`
blocks belong to excluded collaborators and are never read by the engine). -/
structure TypographySettings where
  locale : Option Locale
  enabledRules : List (String × Bool)

/-- `settings.enabledRules[id]` object lookup. -/
def lookupOverride (id : String) : List (String × Bool) → Option Bool
  | [] => none
  | (k, b) :: rest => if k = id then some b else lookupOverride id rest

/-! ## `ruDecimals` (`src/rules/ru/numbers.ts`) -/

/-- The scan of `text.replace(/(\d)\.(\d)/g, cb)` in `ruDecimals`: `t` is
the whole subject (the callback does its own lookaround on it), `pos` the
current offset, and the list argument is `t.drop pos`.  A `digit.digit`
match is kept verbatim when its offset is protected or it is part of a
multi-dot sequence, and otherwise has its dot replaced by a comma; either
way the match is consumed. -/
def decGo (ranges : List (Nat × Nat)) (t : List Char) : Nat → List Char → List Char
  | _, [] => []
  | pos, d1 :: '.' :: d2 :: rest2 =>
    if jsDigit d1 ∧ jsDigit d2 then
      if isProtected pos ranges ∨ (pos + 3 < t.length ∧ t[pos+3]? = some '.') ∨
         (2 ≤ pos ∧ t[pos-1]? = some '.' ∧ (t[pos-2]?.elim false jsDigit) = true) then
        d1 :: '.' :: d2 :: decGo ranges t (pos + 3) rest2
      else
        d1 :: ',' :: d2 :: decGo ranges t (pos + 3) rest2
    else d1 :: decGo ranges t (pos + 1) ('.' :: d2 :: rest2)
  | pos, c :: rest => c :: decGo ranges t (pos + 1) rest

/-- Decimal separator: dot → comma for Russian locale, skipping protected
ranges and multi-dot sequences. -/
def ruDecimalsApply (t : List Char) (ctx : RuleContext) : List Char :=
  decGo ctx.protectedRanges t 0 t

def ruDecimals : TypographyRule where
  id := "ru/numbers/decimals"
  name := [("ru", "Десятичная запятая (3,14)"), ("en", "Decimal comma")]
  locale := .ru
  group := "numbers"
  enabled := true
  priority := 62
  apply := ruDecimalsApply

/-! ## Common literal-matching helpers -/

/-- Non-breaking space. -/
def NBSP : Char := ' '

/-- Thin space. -/
def THIN : Char := ' '

/-- Narrow no-break space (French standard). -/
def NNBSP : Char := ' '

/-- Literal word match at the head of `l`, optionally case-insensitively
(regex `i` flag). -/
def matchLit (ci : Bool) : List Char → List Char → Bool
  | [], _ => true
  | _ :: _, [] => false
  | a :: as, b :: bs => (if ci then ciEq a b else a = b) && matchLit ci as bs

/-- Regex alternation `(w₁|w₂|…)` over literal words, tried in source order,
with backtracking into the continuation `k` (which receives the matched
subject characters and the remaining subject). -/
def firstAlt (ci : Bool) (k : List Char → List Char → Option (List Char × Nat)) :
    List (List Char) → List Char → Option (List Char × Nat)
  | [], _ => none
  | w :: ws, l =>
    if matchLit ci w l then
      match k (l.take w.length) (l.drop w.length) with
      | some r => some r
      | none => firstAlt ci k ws l
    else firstAlt ci k ws l

/-- `text.replace(from, to)` for a literal pattern with the `g` flag
(optionally case-insensitive). -/
def replaceLit (ci : Bool) (fromW toW : List Char) (t : List Char) : List Char :=
  gRepN (fun l => if matchLit ci fromW l then some (toW, fromW.length) else none) t

/-! ## Common rules (`src/rules/common/index.ts`) -/

/-- Remove multiple consecutive spaces (`/ {2,}/g → ' '`). -/
def removeDoubleSpacesApply (t : List Char) (_ : RuleContext) : List Char :=
  gRepN (fun l =>
    let n := countWhile (fun c => c = ' ') l
    if 2 ≤ n then some ([' '], n) else none) t

def removeDoubleSpaces : TypographyRule where
  id := "common/spaces/double"
  name := [("ru", "Удаление двойных пробелов"), ("en", "Remove double spaces"),
    ("fr", "Supprimer les doubles espaces"), ("zh", "删除多余空格"), ("ja", "二重スペースの削除")]
  locale := .common
  group := "spaces"
  enabled := true
  priority := 10
  apply := removeDoubleSpacesApply

/-- `(c) → ©`, `(r) → ®`, `(tm) → ™` (each `gi`). -/
def specialSymbolsApply (t : List Char) (_ : RuleContext) : List Char :=
  replaceLit true "(tm)".data "™".data
    (replaceLit true "(r)".data "®".data
      (replaceLit true "(c)".data "©".data t))

def specialSymbols : TypographyRule where
  id := "common/special/symbols"
  name := [("ru", "Спецсимволы ©®™"), ("en", "Special symbols ©®™"),
    ("fr", "Symboles spéciaux ©®™"), ("zh", "特殊符号 ©®™"), ("ja", "特殊記号 ©®™")]
  locale := .common
  group := "special"
  enabled := true
  priority := 20
  apply := specialSymbolsApply

/-- `+- → ±`. -/
def plusMinusApply (t : List Char) (_ : RuleContext) : List Char :=
  replaceLit false "+-".data "±".data t

def plusMinus : TypographyRule where
  id := "common/special/plusminus"
  name := [("ru", "Плюс-минус ±"), ("en", "Plus-minus ±"), ("fr", "Plus-moins ±"),
    ("zh", "正负号 ±"), ("ja", "プラスマイナス ±")]
  locale := .common
  group := "special"
  enabled := true
  priority := 21
  apply := plusMinusApply

/-- `/\.{2,}/g → …`. -/
def ellipsisApply (t : List Char) (_ : RuleContext) : List Char :=
  gRepN (fun l =>
    let n := countWhile (fun c => c = '.') l
    if 2 ≤ n then some (['…'], n) else none) t

def ellipsis : TypographyRule where
  id := "common/punctuation/ellipsis"
  name := [("ru", "Многоточие …"), ("en", "Ellipsis …"), ("fr", "Points de suspension …"),
    ("zh", "省略号 …"), ("ja", "省略記号 …")]
  locale := .common
  group := "punctuation"
  enabled := true
  priority := 15
  apply := ellipsisApply

/-- `/\s*!+\s*\?+/g → ?!`, `/\s*\?+\s*!+/g → ?!`, then
`/([?!,;:])\1+/g → $1`. -/
def duplicatePunctuationApply (t : List Char) (_ : RuleContext) : List Char :=
  let seqRep (first second : Char) (l : List Char) : Option (List Char × Nat) :=
    let a := countWhile jsSpace l
    let b := countWhile (fun c => c = first) (l.drop a)
    let c := countWhile jsSpace (l.drop (a + b))
    let d := countWhile (fun x => x = second) (l.drop (a + b + c))
    if 1 ≤ b ∧ 1 ≤ d then some (['?', '!'], a + b + c + d) else none
  let r1 := gRepN (seqRep '!' '?') t
  let r2 := gRepN (seqRep '?' '!') r1
  gRepN (fun l =>
    match l with
    | c :: rest =>
      if c = '?' || c = '!' || c = ',' || c = ';' || c = ':' then
        let n := countWhile (fun x => x = c) rest
        if 1 ≤ n then some ([c], 1 + n) else none
      else none
    | [] => none) r2

def duplicatePunctuation : TypographyRule where
  id := "common/punctuation/duplicates"
  name := [("ru", "Дублирующаяся пунктуация"), ("en", "Duplicate punctuation"),
    ("fr", "Ponctuation en double"), ("zh", "重复标点"), ("ja", "重複句読点")]
  locale := .common
  group := "punctuation"
  enabled := true
  priority := 12
  apply := duplicatePunctuationApply

/-- All registered common rules, in catalog order. -/
def commonRules : List TypographyRule :=
  [removeDoubleSpaces, specialSymbols, plusMinus, ellipsis, duplicatePunctuation]


/-! ## Russian rules (`src/rules/ru/...`) -/

/-- The class `[а-яА-ЯёЁ]` (Cyrillic letters with yo). -/
def cyrL (c : Char) : Bool :=
  ('а' ≤ c && c ≤ 'я') || ('А' ≤ c && c ≤ 'Я') || c = 'ё' || c = 'Ё'

/-- The class `[А-Я]` (capital Cyrillic, without Ё). -/
def cyrUp (c : Char) : Bool := 'А' ≤ c && c ≤ 'Я'

/-- The class `[а-яА-ЯёЁa-zA-Z]` counted by `ruFixCase`. -/
def caseLetterC (c : Char) : Bool :=
  cyrL c || ('a' ≤ c && c ≤ 'z') || ('A' ≤ c && c ≤ 'Z')

/-- The class `[А-ЯЁA-Z]` counted by `ruFixCase`. -/
def caseUpperC (c : Char) : Bool :=
  ('А' ≤ c && c ≤ 'Я') || c = 'Ё' || ('A' ≤ c && c ≤ 'Z')

/-- Number of characters of `t` in class `p` (a `text.match(/[…]/g)` count). -/
def countClass (p : Char → Bool) (t : List Char) : Nat :=
  (t.filter p).length

/-- Known abbreviations restored after case folding (`case.ts`). -/
def caseAbbrDict : List (String × String) := [
  ("ссср", "СССР"),
  ("гост", "ГОСТ"),
  ("сша", "США"),
  ("рф", "РФ"),
  ("снг", "СНГ"),
  ("ооо", "ООО"),
  ("пао", "ПАО"),
  ("зао", "ЗАО"),
  ("оао", "ОАО"),
  ("смс", "СМС"),
  ("cvv", "CVV"),
  ("cvc", "CVC"),
  ("qr-код", "QR-код"),
  ("пин-код", "ПИН-код"),
  ("wi-fi", "Wi-Fi"),
  ("фгос", "ФГОС"),
  ("мвд", "МВД"),
  ("фсб", "ФСБ"),
  ("гибдд", "ГИБДД"),
  ("мчс", "МЧС"),
  ("фнс", "ФНС"),
  ("ндс", "НДС"),
  ("нко", "НКО"),
  ("ип", "ИП"),
  ("инн", "ИНН"),
  ("огрн", "ОГРН"),
  ("кпп", "КПП"),
  ("url", "URL"),
  ("api", "API"),
  ("html", "HTML"),
  ("css", "CSS"),
  ("pdf", "PDF"),
  ("usb", "USB"),
  ("hdmi", "HDMI"),
  ("ram", "RAM"),
  ("ssd", "SSD"),
  ("hdd", "HDD"),
  ("dpi", "DPI"),
  ("fps", "FPS")
]

/-- Assoc lookup used for `ABBREVIATIONS[m.toLowerCase()]`. -/
def lookupStr (key : List Char) : List (String × String) → Option (List Char)
  | [] => none
  | (k, v) :: rest => if k.data = key then some v.data else lookupStr key rest

/-- `/([.!?…]\s+)([а-яёa-z])/g` → `$1` + uppercased `$2`. -/
def ruCaseSentRep (t : List Char) : List Char :=
  let sentLowC (c : Char) : Bool := ('а' ≤ c && c ≤ 'я') || c = 'ё' || ('a' ≤ c && c ≤ 'z')
  gRepN (fun l =>
    match l with
    | c1 :: rest =>
      if c1 = '.' || c1 = '!' || c1 = '?' || c1 = '…' then
        let sp := countWhile jsSpace rest
        if 1 ≤ sp then
          match (rest.drop sp).head? with
          | some c2 =>
            if sentLowC c2 then some (c1 :: rest.take sp ++ [jsToUpper c2], 1 + sp + 1)
            else none
          | none => none
        else none
      else none
    | [] => none) t

/-- The abbreviation-restoring pass `\b(key₁|key₂|…)\b` (`gi`), replacing a
match by its dictionary value (`ABBREVIATIONS[m.toLowerCase()] || m`).  A JS
`\b` tests word-char membership of the neighbouring subject characters, so
for all-Cyrillic keys it requires an adjacent Latin/digit/underscore. -/
def ruCaseAbbrRep (t : List Char) : List Char :=
  gRep (fun prev _ l =>
    if jsBoundary prev l.head? then
      firstAlt true (fun matched rest =>
        if jsBoundary matched.getLast? rest.head? then
          some ((lookupStr (matched.map jsToLower) caseAbbrDict).getD matched, matched.length)
        else none) (caseAbbrDict.map (fun e => e.1.data)) l
    else none) none 0 t

/-- Fix ALL CAPS text to sentence case (`ru/case/capslock`): needs > 20
letters, ≥ 70 % of them uppercase (`uppercase/letters < 0.7` modelled as the
exact comparison `10·up < 7·letters`). -/
def ruFixCaseApply (t : List Char) (_ : RuleContext) : List Char :=
  let letters := countClass caseLetterC t
  if letters < 20 then t
  else if 10 * countClass caseUpperC t < 7 * letters then t
  else
    let low := t.map jsToLower
    let cap := match low with
      | [] => []
      | c :: rest => jsToUpper c :: rest
    ruCaseAbbrRep (ruCaseSentRep cap)

def ruFixCase : TypographyRule where
  id := "ru/case/capslock"
  name := [("ru", "Исправление регистра (CAPS LOCK)"), ("en", "Fix ALL CAPS")]
  locale := .ru
  group := "case"
  enabled := true
  priority := 5
  apply := ruFixCaseApply

/-- The yo-fication dictionary, in source order (identical pairs are later
filtered out, matching `effectiveEntries`). -/
def yoDict : List (String × String) := [
  ("еще", "ещё"),
  ("моем", "моём"),
  ("твоем", "твоём"),
  ("своем", "своём"),
  ("чем", "чём"),
  ("елка", "ёлка"),
  ("елки", "ёлки"),
  ("елку", "ёлку"),
  ("елкой", "ёлкой"),
  ("елке", "ёлке"),
  ("елок", "ёлок"),
  ("елочка", "ёлочка"),
  ("елочки", "ёлочки"),
  ("елочку", "ёлочку"),
  ("берёза", "берёза"),
  ("мед", "мёд"),
  ("меда", "мёда"),
  ("медом", "мёдом"),
  ("лед", "лёд"),
  ("льда", "льда"),
  ("лен", "лён"),
  ("шел", "шёл"),
  ("шла", "шла"),
  ("зеленый", "зелёный"),
  ("зеленая", "зелёная"),
  ("зеленое", "зелёное"),
  ("зеленые", "зелёные"),
  ("черный", "чёрный"),
  ("черная", "чёрная"),
  ("черное", "чёрное"),
  ("черные", "чёрные"),
  ("желтый", "жёлтый"),
  ("желтая", "жёлтая"),
  ("желтое", "жёлтое"),
  ("желтые", "жёлтые"),
  ("тёмный", "тёмный"),
  ("темный", "тёмный"),
  ("темная", "тёмная"),
  ("темное", "тёмное"),
  ("темные", "тёмные"),
  ("ребенок", "ребёнок"),
  ("ребенка", "ребёнка"),
  ("ребенку", "ребёнку"),
  ("ребенком", "ребёнком"),
  ("приём", "приём"),
  ("прием", "приём"),
  ("приема", "приёма"),
  ("приему", "приёму"),
  ("приемом", "приёмом"),
  ("подъем", "подъём"),
  ("подъема", "подъёма"),
  ("учет", "учёт"),
  ("учета", "учёта"),
  ("учетом", "учётом"),
  ("ученый", "учёный"),
  ("ученого", "учёного"),
  ("расчет", "расчёт"),
  ("расчета", "расчёта"),
  ("расчетом", "расчётом"),
  ("счет", "счёт"),
  ("счета", "счёта"),
  ("полет", "полёт"),
  ("полета", "полёта"),
  ("самолет", "самолёт"),
  ("самолета", "самолёта"),
  ("трех", "трёх"),
  ("трехкомнатный", "трёхкомнатный"),
  ("четырех", "четырёх"),
  ("идет", "идёт"),
  ("пойдет", "пойдёт"),
  ("найдет", "найдёт"),
  ("дает", "даёт"),
  ("задает", "задаёт"),
  ("передает", "передаёт"),
  ("берет", "берёт"),
  ("несет", "несёт"),
  ("ведет", "ведёт"),
  ("везет", "везёт"),
  ("течет", "течёт"),
  ("печет", "печёт"),
  ("жжет", "жжёт"),
  ("жует", "жуёт"),
  ("клюет", "клюёт"),
  ("поет", "поёт"),
  ("пришел", "пришёл"),
  ("ушел", "ушёл"),
  ("нашел", "нашёл"),
  ("зашел", "зашёл"),
  ("вышел", "вышёл"),
  ("подошел", "подошёл"),
  ("перешел", "перешёл"),
  ("обошел", "обошёл")
]

/-- One dictionary substitution `(?<![а-яА-ЯёЁ])from(?![а-яА-ЯёЁ])` (`g`). -/
def yoBounded (fromW toW : List Char) (t : List Char) : List Char :=
  gRep (fun prev _ l =>
    if !(prev.elim false cyrL) && matchLit false fromW l &&
       !((l.drop fromW.length).head?.elim false cyrL) then
      some (toW, fromW.length)
    else none) none 0 t

/-- `from.charAt(0).toUpperCase() + from.slice(1)`. -/
def capFirst (w : List Char) : List Char :=
  match w with
  | [] => []
  | c :: rest => jsToUpper c :: rest

/-- Yo-fication: for each effective entry, the lowercase substitution, then
the capitalized variant when it differs. -/
def ruYoApply (t : List Char) (_ : RuleContext) : List Char :=
  (yoDict.filter fun e => e.1 ≠ e.2).foldl (fun acc e =>
    let r1 := yoBounded e.1.data e.2.data acc
    if capFirst e.1.data ≠ capFirst e.2.data then
      yoBounded (capFirst e.1.data) (capFirst e.2.data) r1
    else r1) t

def ruYo : TypographyRule where
  id := "ru/yo/basic"
  name := [("ru", "Ёфикатор"), ("en", "Yo-fication (ё)")]
  locale := .ru
  group := "yo"
  enabled := true
  priority := 25
  apply := ruYoApply

/-! ### `ruQuotes` (`src/rules/ru/quotes.ts`) -/

/-- The normalization class `[«»„"“”]` (the straight quote appears three
times in the source class). -/
def quoteNormChar (c : Char) : Bool :=
  c = '«' || c = '»' || c = '„' || c = '"' || c = '“' || c = '”'

/-- First pass: normalize all quote variants to a straight quote.  Every
match of the single-character class is one character, so the global replace
is a map. -/
def quoteNormalize (t : List Char) : List Char :=
  t.map fun c => if quoteNormChar c then '"' else c

/-- `/[\s(\[{]/.test(before)`: the opening-context test.  (The source also
has `|| i === 0`, which is redundant because `before` defaults to a space at
the start of the scan.) -/
def isOpeningCtx (before : Char) : Bool :=
  jsSpace before || before = '(' || before = '[' || before = '{'

/-- Process one straight-quote marker: emitted glyph and new depth.
`before` is the *normalized subject* character before the marker, so the
`before === '«' || before === '„'` test can never fire (normalization has
already replaced those glyphs). -/
def quoteStep (depth : Int) (before : Char) : Char × Int :=
  if isOpeningCtx before || before = '«' || before = '„' then
    ((if depth = 0 then '«' else '„'), depth + 1)
  else if depth - 1 ≤ 0 then ('»', 0)
  else ('"', depth - 1)

/-- The nesting-aware scan over the normalized text (depth starts at 0,
`before` starts as a space). -/
def quoteScanGo : Int → Char → List Char → List Char
  | _, _, [] => []
  | depth, before, c :: rest =>
    if c = '"' then
      (quoteStep depth before).1 :: quoteScanGo (quoteStep depth before).2 c rest
    else c :: quoteScanGo depth c rest

/-- The depth value after each character of the scan. -/
def quoteDepths : Int → Char → List Char → List Int
  | _, _, [] => []
  | depth, before, c :: rest =>
    if c = '"' then
      (quoteStep depth before).2 :: quoteDepths (quoteStep depth before).2 c rest
    else depth :: quoteDepths depth c rest

/-- Russian quotes: « » for the outer level, „ (and a straight closing
quote) for inner levels. -/
def ruQuotesApply (t : List Char) (_ : RuleContext) : List Char :=
  quoteScanGo 0 ' ' (quoteNormalize t)

def ruQuotes : TypographyRule where
  id := "ru/quotes/guillemets"
  name := [("ru", "Кавычки «ёлочки» и „лапки“"), ("en", "Russian quotes «» „“")]
  locale := .ru
  group := "quotes"
  enabled := true
  priority := 30
  apply := ruQuotesApply

/-! ### Russian dashes (`src/rules/ru/dashes.ts`) -/

/-- `(\d+)\s*-\s*(\d+) → $1–$2` and the Roman-numeral analogue. -/
def ruEnDashApply (t : List Char) (_ : RuleContext) : List Char :=
  let dashRun (cls : Char → Bool) (dash : Char) (l : List Char) :
      Option (List Char × Nat) :=
    let d1 := countWhile cls l
    if d1 = 0 then none
    else
      let s1 := countWhile jsSpace (l.drop d1)
      match (l.drop (d1 + s1)).head? with
      | some '-' =>
        let s2 := countWhile jsSpace (l.drop (d1 + s1 + 1))
        let d2 := countWhile cls (l.drop (d1 + s1 + 1 + s2))
        if d2 = 0 then none
        else some (l.take d1 ++ dash :: (l.drop (d1 + s1 + 1 + s2)).take d2,
          d1 + s1 + 1 + s2 + d2)
      | _ => none
  let romanC (c : Char) : Bool :=
    c = 'I' || c = 'V' || c = 'X' || c = 'L' || c = 'C' || c = 'D' || c = 'M'
  gRepN (dashRun romanC '–') (gRepN (dashRun jsDigit '–') t)

def ruEnDash : TypographyRule where
  id := "ru/dashes/endash"
  name := [("ru", "Короткое тире в диапазонах"), ("en", "En-dash in ranges")]
  locale := .ru
  group := "dashes"
  enabled := true
  priority := 35
  apply := ruEnDashApply

/-- `/(?<=\S) - (?=\S)/g → ' — '`. -/
def ruEmDashApply (t : List Char) (_ : RuleContext) : List Char :=
  gRep (fun prev _ l =>
    match prev, l with
    | some p, ' ' :: '-' :: ' ' :: rest =>
      if !jsSpace p && rest.head?.elim false (fun c => !jsSpace c) then
        some ([' ', '—', ' '], 3)
      else none
    | _, _ => none) none 0 t

def ruEmDash : TypographyRule where
  id := "ru/dashes/emdash"
  name := [("ru", "Длинное тире"), ("en", "Em-dash")]
  locale := .ru
  group := "dashes"
  enabled := true
  priority := 36
  apply := ruEmDashApply

/-! ### Russian space rules (`src/rules/ru/spaces.ts`) -/

/-- Short words that take a non-breaking space after them. -/
def shortWordsList : List String := ["а", "б", "без", "безо", "будто", "бы", "в", "во", "ведь", "вне", "вот", "где", "да", "даже", "для", "до", "если", "есть", "ж", "же", "за", "и", "из", "изо", "из-за", "из-под", "или", "иль", "к", "ко", "как", "ли", "ль", "либо", "между", "на", "над", "надо", "не", "ни", "но", "о", "об", "обо", "около", "от", "ото", "перед", "по", "по-за", "по-над", "под", "подо", "после", "при", "про", "ради", "с", "со", "сквозь", "так", "также", "там", "тем", "то", "тогда", "того", "тоже", "у", "хоть", "хотя", "чего", "через", "что", "чтобы", "это"]

/-- Address/measurement abbreviations for `ruDotAbbreviations`. -/
def abbrList : List String := ["г", "обл", "кр", "ст", "пос", "с", "д", "ул", "пер", "пр", "пр-т", "просп", "пл", "бул", "б-р", "наб", "ш", "туп", "оф", "кв", "комн", "под", "мкр", "уч", "вл", "влад", "стр", "корп", "литер", "эт", "пгт", "гл", "рис", "илл", "п", "c"]

/-- Symbols for `ruSymbolSpaces`. -/
def symbolsList : List String := ["№", "§", "АО", "ОАО", "ЗАО", "ООО", "ПАО"]

/-- A `(^|cls)(w₁|w₂|…)…` matcher: the `^` alternative (only at offset 0,
where `gRep` passes `prev = none`) is tried first, then a consumed boundary
character of class `cls`; `k` gets the boundary chars, the matched word and
the remaining subject. -/
def bndAlt (ci : Bool) (cls : Char → Bool) (words : List (List Char))
    (k : List Char → List Char → List Char → Option (List Char × Nat))
    (prev : Option Char) (l : List Char) : Option (List Char × Nat) :=
  let viaW (bnd : List Char) (l2 : List Char) : Option (List Char × Nat) :=
    firstAlt ci (fun matched rest => k bnd matched rest) words l2
  let viaCls : Option (List Char × Nat) :=
    match l with
    | c :: l2 => if cls c then viaW [c] l2 else none
    | [] => none
  match prev with
  | none =>
    match viaW [] l with
    | some r => some r
    | none => viaCls
  | some _ => viaCls

/-- One pass of `ruShortWords`: `((?:^|cls)(?:w₁|w₂|…)) ` (`gi`) →
`$1` + NBSP (the trailing literal space is consumed). -/
def ruShortWordsPass (cls : Char → Bool) (t : List Char) : List Char :=
  gRep (fun prev _ l =>
    bndAlt true cls (shortWordsList.map String.data)
      (fun bnd matched rest =>
        match rest with
        | ' ' :: _ => some (bnd ++ matched ++ [NBSP], bnd.length + matched.length + 1)
        | _ => none) prev l) none 0 t

/-- Non-breaking space after short words: one `\s`-boundary pass, then two
passes whose boundary class also lists NBSP explicitly. -/
def ruShortWordsApply (t : List Char) (_ : RuleContext) : List Char :=
  let p1 := ruShortWordsPass jsSpace t
  let p2 := ruShortWordsPass (fun c => jsSpace c || c = NBSP) p1
  ruShortWordsPass (fun c => jsSpace c || c = NBSP) p2

def ruShortWords : TypographyRule where
  id := "ru/spaces/shortwords"
  name := [("ru", "Неразрывный пробел после предлогов"),
    ("en", "Non-breaking space after prepositions")]
  locale := .ru
  group := "spaces"
  enabled := true
  priority := 50
  apply := ruShortWordsApply

/-- `/ —/g` → NBSP + em-dash. -/
def ruEmDashSpaceApply (t : List Char) (_ : RuleContext) : List Char :=
  replaceLit false [' ', '—'] [NBSP, '—'] t

def ruEmDashSpace : TypographyRule where
  id := "ru/spaces/emdash"
  name := [("ru", "Неразрывный пробел перед тире"), ("en", "Non-breaking space before em-dash")]
  locale := .ru
  group := "spaces"
  enabled := true
  priority := 51
  apply := ruEmDashSpaceApply

/-- The surname class `[а-яёЁ-]`. -/
def surnameC (c : Char) : Bool :=
  ('а' ≤ c && c ≤ 'я') || c = 'ё' || c = 'Ё' || c = '-'

/-- Initials: `([А-Я]\.)\s*([А-Я]\.)\s+([А-Я][а-яёЁ-]+) → $1$2&nbsp;$3`
then `([А-Я][а-яёЁ-]+)\s+([А-Я]\.)\s*([А-Я]\.) → $1&nbsp;$2$3` (the
unconsumed `\s*` between the captures is dropped by the replacement). -/
def ruInitialsApply (t : List Char) (_ : RuleContext) : List Char :=
  let r1 := gRepN (fun l =>
    match l with
    | c1 :: '.' :: rest =>
      if cyrUp c1 then
        let sp1 := countWhile jsSpace rest
        match rest.drop sp1 with
        | c2 :: '.' :: rest2 =>
          if cyrUp c2 then
            let sp2 := countWhile jsSpace rest2
            if 1 ≤ sp2 then
              match rest2.drop sp2 with
              | c3 :: rest3 =>
                if cyrUp c3 then
                  let rn := countWhile surnameC rest3
                  if 1 ≤ rn then
                    some ([c1, '.', c2, '.', NBSP, c3] ++ rest3.take rn,
                      2 + sp1 + 2 + sp2 + 1 + rn)
                  else none
                else none
              | [] => none
            else none
          else none
        | _ => none
      else none
    | _ => none) t
  gRepN (fun l =>
    match l with
    | c1 :: rest =>
      if cyrUp c1 then
        let rn := countWhile surnameC rest
        if 1 ≤ rn then
          let sp1 := countWhile jsSpace (rest.drop rn)
          if 1 ≤ sp1 then
            match rest.drop (rn + sp1) with
            | c2 :: '.' :: rest2 =>
              if cyrUp c2 then
                let sp2 := countWhile jsSpace rest2
                match rest2.drop sp2 with
                | c3 :: '.' :: _ =>
                  if cyrUp c3 then
                    some (c1 :: rest.take rn ++ [NBSP, c2, '.', c3, '.'],
                      1 + rn + sp1 + 2 + sp2 + 2)
                  else none
                | _ => none
              else none
            | _ => none
          else none
        else none
      else none
    | [] => none) r1

def ruInitials : TypographyRule where
  id := "ru/spaces/initials"
  name := [("ru", "Инициалы"), ("en", "Initials formatting")]
  locale := .ru
  group := "spaces"
  enabled := true
  priority := 52
  apply := ruInitialsApply

/-- `/\s(и\sт\.д\.|и\sт\.п\.|и\sдр\.)/gi` → NBSP + `$1`. -/
def ruAbbreviationPatternsApply (t : List Char) (_ : RuleContext) : List Char :=
  gRepN (fun l =>
    match l with
    | c0 :: i :: s :: rest =>
      if jsSpace c0 && ciEq i 'и' && jsSpace s then
        let alt : Option Nat :=
          match rest with
          | t1 :: '.' :: d1 :: '.' :: _ =>
            if ciEq t1 'т' && (ciEq d1 'д' || ciEq d1 'п') then some 4 else none
          | _ => none
        let alt : Option Nat :=
          match alt with
          | some n => some n
          | none =>
            match rest with
            | d1 :: r1 :: '.' :: _ => if ciEq d1 'д' && ciEq r1 'р' then some 3 else none
            | _ => none
        match alt with
        | some n => some (NBSP :: (l.drop 1).take (2 + n), 3 + n)
        | none => none
      else none
    | _ => none) t

def ruAbbreviationPatterns : TypographyRule where
  id := "ru/spaces/abbr-patterns"
  name := [("ru", "Сокращения (и т.д., и т.п.)"), ("en", "Abbreviation patterns")]
  locale := .ru
  group := "spaces"
  enabled := true
  priority := 53
  apply := ruAbbreviationPatternsApply

/-- The unit class `[а-яА-ЯёЁ§№]`. -/
def unitC (c : Char) : Bool := cyrL c || c = '§' || c = '№'

/-- `/(\d)\s+([а-яА-ЯёЁ§№]+)/g → $1&nbsp;$2`. -/
def ruDigitsUnitsApply (t : List Char) (_ : RuleContext) : List Char :=
  gRepN (fun l =>
    match l with
    | d :: rest =>
      if jsDigit d then
        let sp := countWhile jsSpace rest
        if 1 ≤ sp then
          let un := countWhile unitC (rest.drop sp)
          if 1 ≤ un then some (d :: NBSP :: (rest.drop sp).take un, 1 + sp + un)
          else none
        else none
      else none
    | [] => none) t

def ruDigitsUnits : TypographyRule where
  id := "ru/spaces/digits-units"
  name := [("ru", "Число + единица (5 кг)"), ("en", "Number + unit")]
  locale := .ru
  group := "spaces"
  enabled := true
  priority := 54
  apply := ruDigitsUnitsApply

/-- `(^|\s)(abbr₁|abbr₂|…)\.\s` (`gi`) → `$1$2.` + NBSP. -/
def ruDotAbbreviationsApply (t : List Char) (_ : RuleContext) : List Char :=
  gRep (fun prev _ l =>
    bndAlt true jsSpace (abbrList.map String.data)
      (fun bnd matched rest =>
        match rest with
        | '.' :: s :: _ =>
          if jsSpace s then
            some (bnd ++ matched ++ ['.', NBSP], bnd.length + matched.length + 2)
          else none
        | _ => none) prev l) none 0 t

def ruDotAbbreviations : TypographyRule where
  id := "ru/spaces/dot-abbr"
  name := [("ru", "Сокращения с точкой (г. Москва)"), ("en", "Dot abbreviations")]
  locale := .ru
  group := "spaces"
  enabled := true
  priority := 55
  apply := ruDotAbbreviationsApply

/-- `(^|\s)(№|§|АО|ОАО|ЗАО|ООО|ПАО)\s` (`gi`) → `$1$2` + NBSP. -/
def ruSymbolSpacesApply (t : List Char) (_ : RuleContext) : List Char :=
  gRep (fun prev _ l =>
    bndAlt true jsSpace (symbolsList.map String.data)
      (fun bnd matched rest =>
        match rest with
        | s :: _ =>
          if jsSpace s then
            some (bnd ++ matched ++ [NBSP], bnd.length + matched.length + 1)
          else none
        | _ => none) prev l) none 0 t

def ruSymbolSpaces : TypographyRule where
  id := "ru/spaces/symbols"
  name := [("ru", "Символы (№, §, ООО)"), ("en", "Symbol spaces")]
  locale := .ru
  group := "spaces"
  enabled := true
  priority := 56
  apply := ruSymbolSpacesApply

/-- `([«„(\[])\s+ → $1` then `\s+([.…:,;?!»")\]]) → $1`. -/
def ruBracketSpacesApply (t : List Char) (_ : RuleContext) : List Char :=
  let openC (c : Char) : Bool := c = '«' || c = '„' || c = '(' || c = '['
  let closeC (c : Char) : Bool :=
    c = '.' || c = '…' || c = ':' || c = ',' || c = ';' || c = '?' || c = '!' ||
    c = '»' || c = '"' || c = ')' || c = ']'
  let r1 := gRepN (fun l =>
    match l with
    | c :: rest =>
      if openC c then
        let n := countWhile jsSpace rest
        if 1 ≤ n then some ([c], 1 + n) else none
      else none
    | [] => none) t
  gRepN (fun l =>
    let n := countWhile jsSpace l
    if 1 ≤ n then
      match (l.drop n).head? with
      | some c => if closeC c then some ([c], n + 1) else none
      | none => none
    else none) r1

def ruBracketSpaces : TypographyRule where
  id := "ru/spaces/brackets"
  name := [("ru", "Пробелы у скобок и пунктуации"), ("en", "Bracket/punctuation spaces")]
  locale := .ru
  group := "spaces"
  enabled := true
  priority := 48
  apply := ruBracketSpacesApply

/-- Hanging-line classes for `ruHanging`. -/
def hangC (c : Char) : Bool :=
  ('а' ≤ c && c ≤ 'я') || ('А' ≤ c && c ≤ 'Я') || c = 'ё' || c = 'Ё' || c = '-'

/-- `$` of a multiline regex: end of subject or before a newline. -/
def eolAt (l : List Char) : Bool :=
  match l.head? with
  | none => true
  | some c => c = '\n'

/-- Backtracking of `[cls]{1,3}[punct]?$`: greedy length 3 → 1, and for
each length the optional punctuation is tried before its absence. -/
def hangingTail (cls punct : Char → Bool) (l2 : List Char) : Option Nat :=
  let n := countWhile cls l2
  let tryK (k : Nat) : Option Nat :=
    if 1 ≤ k ∧ k ≤ n then
      let after := l2.drop k
      if after.head?.elim false punct && eolAt (after.drop 1) then some (k + 1)
      else if eolAt after then some k
      else none
    else none
  match tryK 3 with
  | some r => some r
  | none =>
    match tryK 2 with
    | some r => some r
    | none => tryK 1

/-- `/(\S+)\s([cls]{1,3}[punct]?)$/gm → $1` + NBSP + `$2`. -/
def hangingRep (cls punct : Char → Bool) (t : List Char) : List Char :=
  gRepN (fun l =>
    let m1 := countWhile (fun c => !jsSpace c) l
    if m1 = 0 then none
    else
      match l[m1]? with
      | some s =>
        if jsSpace s then
          match hangingTail cls punct (l.drop (m1 + 1)) with
          | some j => some (l.take m1 ++ NBSP :: (l.drop (m1 + 1)).take j, m1 + 1 + j)
          | none => none
        else none
      | none => none) t

/-- Prevent orphaned short words (1–3 Cyrillic characters) at line ends. -/
def ruHangingApply (t : List Char) (_ : RuleContext) : List Char :=
  hangingRep hangC
    (fun c => c = '.' || c = ',' || c = '!' || c = '?' || c = '…') t

def ruHanging : TypographyRule where
  id := "ru/spaces/hanging"
  name := [("ru", "Предотвращение висячих строк"), ("en", "Prevent hanging lines")]
  locale := .ru
  group := "spaces"
  enabled := true
  priority := 90
  apply := ruHangingApply


/-! ### Russian number and currency rules (`src/rules/ru/numbers.ts`) -/

/-- Backtracking tail `\s*(\d{1,2})\s*коп\.?` of the kopeck pattern:
`{1,2}` is greedy, and `коп` may carry its optional dot.  Returns the
consumed length and the captured kopeck digits. -/
def kopTail (l2 : List Char) : Option (Nat × List Char) :=
  let sp2 := countWhile jsSpace l2
  let ds := (l2.drop sp2).takeWhile jsDigit
  let tryK (k : Nat) : Option (Nat × List Char) :=
    if 1 ≤ k ∧ k ≤ ds.length then
      let rest3 := l2.drop (sp2 + k)
      let sp3 := countWhile jsSpace rest3
      if matchLit true "коп".data (rest3.drop sp3) then
        let dot : Nat := match rest3.drop (sp3 + 3) with
          | '.' :: _ => 1
          | _ => 0
        some (sp2 + k + sp3 + 3 + dot, ds.take k)
      else none
    else none
  match tryK 2 with
  | some r => some r
  | none => tryK 1

/-- `(\d+)\s*(?:р\.|руб\.?)\s*(\d{1,2})\s*коп\.?` (`gi`) →
`$1,$2.padStart(2,'0')` + NBSP + ₽. -/
def kopMatcher (l : List Char) : Option (List Char × Nat) :=
  let r := countWhile jsDigit l
  if r = 0 then none
  else
    let sp1 := countWhile jsSpace (l.drop r)
    let l2 := l.drop (r + sp1)
    let viaAlt (alen : Nat) : Option (List Char × Nat) :=
      match kopTail (l2.drop alen) with
      | some (tlen, kds) =>
        let kop2 := if kds.length = 1 then '0' :: kds else kds
        some (l.take r ++ ',' :: kop2 ++ [NBSP, '₽'], r + sp1 + alen + tlen)
      | none => none
    let altTry (w : String) : Option (List Char × Nat) :=
      if matchLit true w.data l2 then viaAlt w.data.length else none
    match altTry "р." with
    | some x => some x
    | none =>
      match altTry "руб." with
      | some x => some x
      | none => altTry "руб"

/-- Russian currency formatting (`ru/currency/format`): the kopeck pattern
followed by the abbreviation → ₽/$/€ substitutions and the final
non-breaking-space pass before currency symbols. -/
def ruCurrencyApply (t : List Char) (_ : RuleContext) : List Char :=
  let r1 := gRepN kopMatcher t
  -- `(\d+)\s*(руб\.?)\s*` (`gi`) → `$1` + NBSP + ₽
  let r2 := gRepN (fun l =>
    let r := countWhile jsDigit l
    if r = 0 then none
    else
      let sp1 := countWhile jsSpace (l.drop r)
      if matchLit true "руб".data (l.drop (r + sp1)) then
        let dot : Nat := match l.drop (r + sp1 + 3) with
          | '.' :: _ => 1
          | _ => 0
        let sp2 := countWhile jsSpace (l.drop (r + sp1 + 3 + dot))
        some (l.take r ++ [NBSP, '₽'], r + sp1 + 3 + dot + sp2)
      else none) r1
  -- `(\d+)\s*(RUR|RUB)\b` (`gi`) → `$1` + NBSP + ₽
  let r3 := gRepN (fun l =>
    let r := countWhile jsDigit l
    if r = 0 then none
    else
      let sp1 := countWhile jsSpace (l.drop r)
      firstAlt true (fun matched rest =>
        if jsBoundary matched.getLast? rest.head? then
          some (l.take r ++ [NBSP, '₽'], r + sp1 + matched.length)
        else none) ["RUR".data, "RUB".data] (l.drop (r + sp1))) r2
  -- `(\d+)\s*р\.` (`g`, case-sensitive) → `$1` + NBSP + ₽
  let r4 := gRepN (fun l =>
    let r := countWhile jsDigit l
    if r = 0 then none
    else
      let sp1 := countWhile jsSpace (l.drop r)
      match l.drop (r + sp1) with
      | 'р' :: '.' :: _ => some (l.take r ++ [NBSP, '₽'], r + sp1 + 2)
      | _ => none) r3
  -- `(\d)\s*USD\b` (`gi`) → `$1` + NBSP + $
  let usdEur (w : String) (cur : Char) (t0 : List Char) : List Char :=
    gRepN (fun l =>
      match l with
      | d :: rest =>
        if jsDigit d then
          let sp := countWhile jsSpace rest
          firstAlt true (fun matched rest2 =>
            if jsBoundary matched.getLast? rest2.head? then
              some ([d, NBSP, cur], 1 + sp + matched.length)
            else none) [w.data] (rest.drop sp)
        else none
      | [] => none) t0
  let r5 := usdEur "USD" '$' r4
  let r6 := usdEur "EUR" '€' r5
  -- `(\d)\s*([$€₽])` (`g`) → `$1` + NBSP + `$2`
  gRepN (fun l =>
    match l with
    | d :: rest =>
      if jsDigit d then
        let sp := countWhile jsSpace rest
        match (rest.drop sp).head? with
        | some c =>
          if c = '$' || c = '€' || c = '₽' then some ([d, NBSP, c], 1 + sp + 1)
          else none
        | none => none
      else none
    | [] => none) r6

def ruCurrency : TypographyRule where
  id := "ru/currency/format"
  name := [("ru", "Валюта (₽, $, €)"), ("en", "Currency formatting")]
  locale := .ru
  group := "currency"
  enabled := true
  priority := 60
  apply := ruCurrencyApply

/-- Thousands separator `/(\d)(?=(?:\d{3})+(?![,.\d]))/g` with a
protected-range check on the match offset.  With a maximal following digit
run of length `m`, the lookahead holds iff `m ≥ 3`, `m % 3 = 0` and the
character after the run is neither `,` nor `.` (it is never a digit). -/
def ruThousandsApply (t : List Char) (ctx : RuleContext) : List Char :=
  gRep (fun _ pos l =>
    match l with
    | d :: rest =>
      if jsDigit d then
        let m := countWhile jsDigit rest
        if 3 ≤ m ∧ m % 3 = 0 ∧ rest[m]? ≠ some ',' ∧ rest[m]? ≠ some '.' then
          if isProtected pos ctx.protectedRanges then some ([d], 1)
          else some ([d, THIN], 1)
        else none
      else none
    | [] => none) none 0 t

def ruThousands : TypographyRule where
  id := "ru/numbers/thousands"
  name := [("ru", "Разделитель тысяч (1 000)"), ("en", "Thousands separator")]
  locale := .ru
  group := "numbers"
  enabled := true
  priority := 63
  apply := ruThousandsApply

/-- `/(\d+)\s*%/g → $1` + thin space + %. -/
def ruPercentApply (t : List Char) (_ : RuleContext) : List Char :=
  gRepN (fun l =>
    let r := countWhile jsDigit l
    if r = 0 then none
    else
      let sp := countWhile jsSpace (l.drop r)
      match (l.drop (r + sp)).head? with
      | some '%' => some (l.take r ++ [THIN, '%'], r + sp + 1)
      | _ => none) t

def ruPercent : TypographyRule where
  id := "ru/numbers/percent"
  name := [("ru", "Процент (10 %)"), ("en", "Percentage")]
  locale := .ru
  group := "numbers"
  enabled := true
  priority := 64
  apply := ruPercentApply

/-- `\b(тыс)(?![.\w])` (`gi`) → `$1.` then `\b(млн|млрд|трлн)\.` (`gi`)
→ `$1`.  The `\b` before a Cyrillic (non-word) character only holds next
to a Latin letter, digit or underscore. -/
def ruNumberAbbrApply (t : List Char) (_ : RuleContext) : List Char :=
  let r1 := gRep (fun prev _ l =>
    if jsBoundary prev l.head? && matchLit true "тыс".data l &&
       !((l.drop 3).head?.elim false fun c => c = '.' || jsWord c) then
      some (l.take 3 ++ ['.'], 3)
    else none) none 0 t
  gRep (fun prev _ l =>
    if jsBoundary prev l.head? then
      firstAlt true (fun matched rest =>
        match rest with
        | '.' :: _ => some (matched, matched.length + 1)
        | _ => none) ["млн".data, "млрд".data, "трлн".data] l
    else none) none 0 r1

def ruNumberAbbr : TypographyRule where
  id := "ru/numbers/abbreviations"
  name := [("ru", "Сокращения (тыс., млн)"), ("en", "Number abbreviations")]
  locale := .ru
  group := "numbers"
  enabled := true
  priority := 65
  apply := ruNumberAbbrApply

/-- `\b(\d{2,})\s*[xх]\s*(\d+)\b` (`gi`) → `$1×$2`. -/
def ruMultiplicationApply (t : List Char) (_ : RuleContext) : List Char :=
  gRep (fun prev _ l =>
    if prev.elim false jsWord then none
    else
      let r1 := countWhile jsDigit l
      if r1 < 2 then none
      else
        let sp1 := countWhile jsSpace (l.drop r1)
        match l[r1 + sp1]? with
        | some x =>
          if ciEq x 'x' || ciEq x 'х' then
            let sp2 := countWhile jsSpace (l.drop (r1 + sp1 + 1))
            let r2 := countWhile jsDigit (l.drop (r1 + sp1 + 1 + sp2))
            if 1 ≤ r2 && !(l[r1 + sp1 + 1 + sp2 + r2]?.elim false jsWord) then
              some (l.take r1 ++ '×' :: (l.drop (r1 + sp1 + 1 + sp2)).take r2,
                r1 + sp1 + 1 + sp2 + r2)
            else none
          else none
        | none => none) none 0 t

def ruMultiplication : TypographyRule where
  id := "ru/numbers/multiplication"
  name := [("ru", "Знак умножения (×)"), ("en", "Multiplication sign")]
  locale := .ru
  group := "numbers"
  enabled := true
  priority := 61
  apply := ruMultiplicationApply

/-- Temperature: `([+-]?\d+)\s*°?\s*C(?![a-zA-Zа-яА-ЯёЁ])` (`g`) →
`$1` + NBSP + °C, then `(\d+)\s*(градусов|градуса|градус)\b` (`gi`) →
`$1°`. -/
def ruTemperatureApply (t : List Char) (_ : RuleContext) : List Char :=
  let letterC (c : Char) : Bool :=
    ('a' ≤ c && c ≤ 'z') || ('A' ≤ c && c ≤ 'Z') || cyrL c
  let r1 := gRepN (fun l =>
    let sgn : Nat := match l.head? with
      | some '+' => 1
      | some '-' => 1
      | _ => 0
    let r := countWhile jsDigit (l.drop sgn)
    if r = 0 then none
    else
      let sp1 := countWhile jsSpace (l.drop (sgn + r))
      let deg : Nat := match l[sgn + r + sp1]? with
        | some '°' => 1
        | _ => 0
      let sp2 := countWhile jsSpace (l.drop (sgn + r + sp1 + deg))
      match l[sgn + r + sp1 + deg + sp2]? with
      | some 'C' =>
        if !(l[sgn + r + sp1 + deg + sp2 + 1]?.elim false letterC) then
          some (l.take (sgn + r) ++ [NBSP, '°', 'C'], sgn + r + sp1 + deg + sp2 + 1)
        else none
      | _ => none) t
  gRepN (fun l =>
    let r := countWhile jsDigit l
    if r = 0 then none
    else
      let sp := countWhile jsSpace (l.drop r)
      firstAlt true (fun matched rest =>
        if jsBoundary matched.getLast? rest.head? then
          some (l.take r ++ ['°'], r + sp + matched.length)
        else none) ["градусов".data, "градуса".data, "градус".data]
        (l.drop (r + sp))) r1

def ruTemperature : TypographyRule where
  id := "ru/numbers/temperature"
  name := [("ru", "Температура (°C)"), ("en", "Temperature formatting")]
  locale := .ru
  group := "numbers"
  enabled := true
  priority := 66
  apply := ruTemperatureApply

/-- All registered Russian rules, in catalog order (`src/rules/ru/index.ts`). -/
def ruRules : List TypographyRule :=
  [ruFixCase, ruYo, ruQuotes, ruEnDash, ruEmDash, ruBracketSpaces,
   ruShortWords, ruEmDashSpace, ruInitials, ruAbbreviationPatterns,
   ruDigitsUnits, ruDotAbbreviations, ruSymbolSpaces, ruCurrency,
   ruMultiplication, ruDecimals, ruThousands, ruPercent, ruNumberAbbr,
   ruTemperature, ruHanging]

/-! ## Anti-orphan rule (`src/rules/common/orphan.ts`) -/

/-- `String.prototype.split(sep)` on a single-character separator. -/
def splitOnChar (sep : Char) : List Char → List (List Char)
  | [] => [[]]
  | c :: rest =>
    match splitOnChar sep rest with
    | [] => [[]]
    | h :: tl => if c = sep then [] :: h :: tl else (c :: h) :: tl

/-- `Array.prototype.join(sep)` for a single-character separator. -/
def joinWithChar (sep : Char) : List (List Char) → List Char
  | [] => []
  | [x] => x
  | x :: xs => x ++ sep :: joinWithChar sep xs

/-- Process one line of `nbspOrphan`: trim trailing whitespace, split on
plain spaces, and when at least 3 tokens remain glue the last two with a
non-breaking space (re-appending the trailing whitespace). -/
def orphanLine (line : List Char) : List Char :=
  let trimmed := jsTrimEnd line
  let trailingWs := line.drop trimmed.length
  let tokens := splitOnChar ' ' trimmed
  if tokens.length < 3 then line
  else
    joinWithChar ' ' (tokens.take (tokens.length - 2)) ++
      ' ' :: joinWithChar NBSP (tokens.drop (tokens.length - 2)) ++ trailingWs

/-- Anti-orphan rule: glue the last 2 words on each line with NBSP. -/
def nbspOrphanApply (t : List Char) (_ : RuleContext) : List Char :=
  joinWithChar '\n' ((splitOnChar '\n' t).map orphanLine)

def nbspOrphan : TypographyRule where
  id := "common/layout/orphan"
  name := [("ru", "Висячие строки (NBSP)"), ("en", "Orphan lines (NBSP)"),
    ("fr", "Lignes orphelines (NBSP)"), ("zh", "孤行防护 (NBSP)"), ("ja", "孤立行防止 (NBSP)")]
  locale := .common
  group := "layout"
  enabled := false
  priority := 900
  apply := nbspOrphanApply


/-! ## English rules (`src/rules/en/index.ts`) -/

/-- The opening-boundary class `[\s(\[{]`. -/
def openBndC (c : Char) : Bool :=
  jsSpace c || c = '(' || c = '[' || c = '{'

/-- The closing-lookahead class `[\s)\]},;:!?.]`. -/
def closeLookC (c : Char) : Bool :=
  jsSpace c || c = ')' || c = ']' || c = '}' || c = ',' || c = ';' || c = ':' ||
  c = '!' || c = '?' || c = '.'

/-- `(^|[\s(\[{])q(?=\S)` (`gm`) → `$1` + `rep`: `^` (start or after a
newline) is tried before the consuming boundary class. -/
def openQuoteRep (q : Char) (rep : List Char) (t : List Char) : List Char :=
  gRep (fun prev _ l =>
    let caret : Bool := match prev with
      | none => true
      | some c => c = '\n'
    let viaCaret : Option (List Char × Nat) :=
      if caret then
        match l with
        | c :: rest =>
          if c = q && rest.head?.elim false (fun x => !jsSpace x) then some (rep, 1)
          else none
        | [] => none
      else none
    match viaCaret with
    | some r => some r
    | none =>
      match l with
      | b :: c :: rest =>
        if openBndC b && c = q && rest.head?.elim false (fun x => !jsSpace x) then
          some (b :: rep, 2)
        else none
      | _ => none) none 0 t

/-- `(^|[\s(\[{])q` (`gm`) → `$1` + `rep` (no lookahead). -/
def openQuoteRepNoLook (q : Char) (rep : List Char) (t : List Char) : List Char :=
  gRep (fun prev _ l =>
    let caret : Bool := match prev with
      | none => true
      | some c => c = '\n'
    let viaCaret : Option (List Char × Nat) :=
      if caret then
        match l with
        | c :: _ => if c = q then some (rep, 1) else none
        | [] => none
      else none
    match viaCaret with
    | some r => some r
    | none =>
      match l with
      | b :: c :: _ =>
        if openBndC b && c = q then some (b :: rep, 2) else none
      | _ => none) none 0 t

/-- `q(?=[\s)\]},;:!?.]|$)` (`gm`) → `rep` (`$` is end of subject or
before a newline). -/
def closeQuoteRep (q : Char) (rep : List Char) (t : List Char) : List Char :=
  gRepN (fun l =>
    match l with
    | c :: rest =>
      if c = q then
        match rest.head? with
        | none => some (rep, 1)
        | some nx => if closeLookC nx || nx = '\n' then some (rep, 1) else none
      else none
    | [] => none) t

/-- English curly quotes with apostrophe handling (`en/quotes/curly`). -/
def enQuotesApply (t : List Char) (_ : RuleContext) : List Char :=
  let r0 := t.map fun c => if c = '“' || c = '”' then '"' else c
  let r1 := openQuoteRep '"' ['“'] r0
  let r2 := closeQuoteRep '"' ['”'] r1
  let r3 := openQuoteRepNoLook '"' ['“'] r2
  let r4 := replaceLit false ['"'] ['”'] r3
  -- `(\w)'(\w)` → `$1’$2`
  let r5 := gRepN (fun l =>
    match l with
    | a :: '\'' :: b :: _ =>
      if jsWord a && jsWord b then some ([a, '’', b], 3) else none
    | _ => none) r4
  let r6 := openQuoteRep '\'' ['‘'] r5
  closeQuoteRep '\'' ['’'] r6

def enQuotes : TypographyRule where
  id := "en/quotes/curly"
  name := [("en", "Curly quotes “” ‘’"), ("ru", "Английские кавычки “” ‘’")]
  locale := .en
  group := "quotes"
  enabled := true
  priority := 30
  apply := enQuotesApply

/-- `---? → —` then digit ranges `(\d+)\s*-\s*(\d+) → $1–$2`. -/
def enDashesApply (t : List Char) (_ : RuleContext) : List Char :=
  let r1 := gRepN (fun l =>
    match l with
    | '-' :: '-' :: '-' :: _ => some (['—'], 3)
    | '-' :: '-' :: _ => some (['—'], 2)
    | _ => none) t
  gRepN (fun l =>
    let d1 := countWhile jsDigit l
    if d1 = 0 then none
    else
      let s1 := countWhile jsSpace (l.drop d1)
      match (l.drop (d1 + s1)).head? with
      | some '-' =>
        let s2 := countWhile jsSpace (l.drop (d1 + s1 + 1))
        let d2 := countWhile jsDigit (l.drop (d1 + s1 + 1 + s2))
        if d2 = 0 then none
        else some (l.take d1 ++ '–' :: (l.drop (d1 + s1 + 1 + s2)).take d2,
          d1 + s1 + 1 + s2 + d2)
      | _ => none) r1

def enDashes : TypographyRule where
  id := "en/dashes/smart"
  name := [("en", "Smart dashes — –"), ("ru", "Умные тире")]
  locale := .en
  group := "dashes"
  enabled := true
  priority := 35
  apply := enDashesApply

/-- English short words (`(^|\s)(a|an|…)\s` (`gi`) → `$1$2` + NBSP),
applied twice. -/
def enShortWordsApply (t : List Char) (_ : RuleContext) : List Char :=
  let words : List String :=
    ["a", "an", "the", "at", "by", "for", "in", "of", "on", "to", "or", "if", "is"]
  let onePass (t0 : List Char) : List Char :=
    gRep (fun prev _ l =>
      bndAlt true jsSpace (words.map String.data)
        (fun bnd matched rest =>
          match rest with
          | s :: _ =>
            if jsSpace s then
              some (bnd ++ matched ++ [NBSP], bnd.length + matched.length + 1)
            else none
          | _ => none) prev l) none 0 t0
  onePass (onePass t)

def enShortWords : TypographyRule where
  id := "en/spaces/shortwords"
  name := [("en", "Non-breaking space after articles"), ("ru", "Неразрывный пробел после артиклей")]
  locale := .en
  group := "spaces"
  enabled := true
  priority := 50
  apply := enShortWordsApply

/-- `(\d)\s+(kg|km|…)\b` (`g`, case-sensitive) → `$1` + NBSP + `$2`. -/
def enUnitsApply (t : List Char) (_ : RuleContext) : List Char :=
  let units : List String :=
    ["kg", "km", "cm", "mm", "ml", "lb", "oz", "ft", "in", "mi", "mph",
     "GB", "MB", "KB", "TB"]
  gRepN (fun l =>
    match l with
    | d :: rest =>
      if jsDigit d then
        let sp := countWhile jsSpace rest
        if 1 ≤ sp then
          firstAlt false (fun matched rest2 =>
            if jsBoundary matched.getLast? rest2.head? then
              some (d :: NBSP :: matched, 1 + sp + matched.length)
            else none) (units.map String.data) (rest.drop sp)
        else none
      else none
    | [] => none) t

def enUnits : TypographyRule where
  id := "en/spaces/units"
  name := [("en", "Non-breaking space before units"), ("ru", "Неразрывный пробел перед единицами")]
  locale := .en
  group := "spaces"
  enabled := true
  priority := 54
  apply := enUnitsApply

/-- `(\d)\s+% → $1%` (no space before percent in English style). -/
def enPercentApply (t : List Char) (_ : RuleContext) : List Char :=
  gRepN (fun l =>
    match l with
    | d :: rest =>
      if jsDigit d then
        let sp := countWhile jsSpace rest
        if 1 ≤ sp then
          match (rest.drop sp).head? with
          | some '%' => some ([d, '%'], 1 + sp + 1)
          | _ => none
        else none
      else none
    | [] => none) t

def enPercent : TypographyRule where
  id := "en/numbers/percent"
  name := [("en", "Percentage formatting"), ("ru", "Процент")]
  locale := .en
  group := "numbers"
  enabled := true
  priority := 64
  apply := enPercentApply

/-- `(\S+)\s([a-zA-Z-]{1,3}[.,!?]?)$` (`gm`) → `$1` + NBSP + `$2`. -/
def enHangingApply (t : List Char) (_ : RuleContext) : List Char :=
  hangingRep (fun c => ('a' ≤ c && c ≤ 'z') || ('A' ≤ c && c ≤ 'Z') || c = '-')
    (fun c => c = '.' || c = ',' || c = '!' || c = '?') t

def enHanging : TypographyRule where
  id := "en/spaces/hanging"
  name := [("en", "Prevent hanging lines"), ("ru", "Предотвращение висячих строк")]
  locale := .en
  group := "spaces"
  enabled := true
  priority := 90
  apply := enHangingApply

/-- All registered English rules, in catalog order. -/
def enRules : List TypographyRule :=
  [enQuotes, enDashes, enShortWords, enUnits, enPercent, enHanging]

/-! ## French rules (`src/rules/fr/index.ts`) -/

/-- French guillemets with narrow no-break spaces inside. -/
def frQuotesApply (t : List Char) (_ : RuleContext) : List Char :=
  let r0 := t.map fun c =>
    if c = '"' || c = '«' || c = '»' || c = '“' || c = '”' then '"' else c
  let r1 := openQuoteRep '"' ['«', NNBSP] r0
  let r2 := closeQuoteRep '"' [NNBSP, '»'] r1
  let r3 := openQuoteRepNoLook '"' ['«', NNBSP] r2
  replaceLit false ['"'] [NNBSP, '»'] r3

def frQuotes : TypographyRule where
  id := "fr/quotes/guillemets"
  name := [("fr", "Guillemets « »"), ("en", "French quotes « »"), ("ru", "Французские кавычки « »")]
  locale := .fr
  group := "quotes"
  enabled := true
  priority := 30
  apply := frQuotesApply

/-- `\s*([;:!?]) → ` NNBSP + `$1`, then `^ NNBSP ([;:!?])` (`gm`) → `$1`
to undo it at line starts. -/
def frPunctuationApply (t : List Char) (_ : RuleContext) : List Char :=
  let punctC (c : Char) : Bool := c = ';' || c = ':' || c = '!' || c = '?'
  let r1 := gRepN (fun l =>
    let sp := countWhile jsSpace l
    match (l.drop sp).head? with
    | some c => if punctC c then some ([NNBSP, c], sp + 1) else none
    | none => none) t
  gRep (fun prev _ l =>
    let caret : Bool := match prev with
      | none => true
      | some c => c = '\n'
    if caret then
      match l with
      | a :: c :: _ =>
        if a = NNBSP && punctC c then some ([c], 2) else none
      | _ => none
    else none) none 0 r1

def frPunctuation : TypographyRule where
  id := "fr/punctuation/spaces"
  name := [("fr", "Espace insécable avant ; : ! ?"),
    ("en", "Non-breaking space before ; : ! ?"), ("ru", "Неразрывный пробел перед ; : ! ?")]
  locale := .fr
  group := "punctuation"
  enabled := true
  priority := 40
  apply := frPunctuationApply

/-- Number ranges → en-dash, phrase dashes → NBSP + en-dash + space. -/
def frDashesApply (t : List Char) (_ : RuleContext) : List Char :=
  let r1 := gRepN (fun l =>
    let d1 := countWhile jsDigit l
    if d1 = 0 then none
    else
      let s1 := countWhile jsSpace (l.drop d1)
      match (l.drop (d1 + s1)).head? with
      | some '-' =>
        let s2 := countWhile jsSpace (l.drop (d1 + s1 + 1))
        let d2 := countWhile jsDigit (l.drop (d1 + s1 + 1 + s2))
        if d2 = 0 then none
        else some (l.take d1 ++ '–' :: (l.drop (d1 + s1 + 1 + s2)).take d2,
          d1 + s1 + 1 + s2 + d2)
      | _ => none) t
  gRep (fun prev _ l =>
    match prev, l with
    | some p, ' ' :: '-' :: ' ' :: rest =>
      if !jsSpace p && rest.head?.elim false (fun c => !jsSpace c) then
        some ([NBSP, '–', ' '], 3)
      else none
    | _, _ => none) none 0 r1

def frDashes : TypographyRule where
  id := "fr/dashes/endash"
  name := [("fr", "Tiret demi-cadratin"), ("en", "French dashes"), ("ru", "Французские тире")]
  locale := .fr
  group := "dashes"
  enabled := true
  priority := 35
  apply := frDashesApply

/-- Thousands thin space (without a protected-range check) and NNBSP before
a percent sign. -/
def frNumbersApply (t : List Char) (_ : RuleContext) : List Char :=
  let r1 := gRepN (fun l =>
    match l with
    | d :: rest =>
      if jsDigit d then
        let m := countWhile jsDigit rest
        if 3 ≤ m ∧ m % 3 = 0 ∧ rest[m]? ≠ some ',' ∧ rest[m]? ≠ some '.' then
          some ([d, THIN], 1)
        else none
      else none
    | [] => none) t
  gRepN (fun l =>
    match l with
    | d :: rest =>
      if jsDigit d then
        let sp := countWhile jsSpace rest
        match (rest.drop sp).head? with
        | some '%' => some ([d, NNBSP, '%'], 1 + sp + 1)
        | _ => none
      else none
    | [] => none) r1

def frNumbers : TypographyRule where
  id := "fr/numbers/format"
  name := [("fr", "Formatage des nombres"), ("en", "French number formatting"),
    ("ru", "Французский формат чисел")]
  locale := .fr
  group := "numbers"
  enabled := true
  priority := 62
  apply := frNumbersApply

/-- `EUR` → € and NBSP before €. -/
def frCurrencyApply (t : List Char) (_ : RuleContext) : List Char :=
  let r1 := gRepN (fun l =>
    match l with
    | d :: rest =>
      if jsDigit d then
        let sp := countWhile jsSpace rest
        firstAlt true (fun matched rest2 =>
          if jsBoundary matched.getLast? rest2.head? then
            some ([d, NBSP, '€'], 1 + sp + matched.length)
          else none) ["EUR".data] (rest.drop sp)
      else none
    | [] => none) t
  gRepN (fun l =>
    match l with
    | d :: rest =>
      if jsDigit d then
        let sp := countWhile jsSpace rest
        match (rest.drop sp).head? with
        | some '€' => some ([d, NBSP, '€'], 1 + sp + 1)
        | _ => none
      else none
    | [] => none) r1

def frCurrency : TypographyRule where
  id := "fr/currency/euro"
  name := [("fr", "Euro (€)"), ("en", "Euro formatting"), ("ru", "Евро")]
  locale := .fr
  group := "currency"
  enabled := true
  priority := 60
  apply := frCurrencyApply

/-- French œ-ligature dictionary, in source order. -/
def frLigDict : List (String × String) := [
  ("coeur", "cœur"),
  ("Coeur", "Cœur"),
  ("oeuvre", "œuvre"),
  ("Oeuvre", "Œuvre"),
  ("oeuvres", "œuvres"),
  ("Oeuvres", "Œuvres"),
  ("oeil", "œil"),
  ("Oeil", "Œil"),
  ("voeu", "vœu"),
  ("Voeu", "Vœu"),
  ("voeux", "vœux"),
  ("Voeux", "Vœux"),
  ("noeud", "nœud"),
  ("Noeud", "Nœud"),
  ("soeur", "sœur"),
  ("Soeur", "Sœur"),
  ("boeuf", "bœuf"),
  ("Boeuf", "Bœuf"),
  ("manoeuvre", "manœuvre"),
  ("Manoeuvre", "Manœuvre")
]

/-- `\bword\b` (`g`, case-sensitive) dictionary substitution. -/
def frLigaturesApply (t : List Char) (_ : RuleContext) : List Char :=
  frLigDict.foldl (fun acc e =>
    gRep (fun prev _ l =>
      if jsBoundary prev l.head? && matchLit false e.1.data l &&
         jsBoundary ((l.take e.1.data.length).getLast?) ((l.drop e.1.data.length).head?) then
        some (e.2.data, e.1.data.length)
      else none) none 0 acc) t

def frLigatures : TypographyRule where
  id := "fr/special/ligatures"
  name := [("fr", "Ligatures œ"), ("en", "OE ligatures"), ("ru", "Лигатуры œ")]
  locale := .fr
  group := "special"
  enabled := true
  priority := 70
  apply := frLigaturesApply

/-- All registered French rules, in catalog order. -/
def frRules : List TypographyRule :=
  [frQuotes, frPunctuation, frDashes, frNumbers, frCurrency, frLigatures]

/-! ## Chinese rules (`src/rules/zh/index.ts`) -/

/-- The CJK ideograph class `[\u4e00-\u9fff\u3400-\u4dbf\uf900-\ufaff]`. -/
def cjkC (c : Char) : Bool :=
  (0x4E00 ≤ c.val && c.val ≤ 0x9FFF) || (0x3400 ≤ c.val && c.val ≤ 0x4DBF) ||
  (0xF900 ≤ c.val && c.val ≤ 0xFAFF)

/-- Fullwidth → halfwidth for digits and Latin letters (code − 0xFEE0). -/
def widthNormalize (t : List Char) : List Char :=
  let r1 := t.map fun c =>
    if 0xFF10 ≤ c.val && c.val ≤ 0xFF19 then Char.ofNat (c.toNat - 0xFEE0) else c
  r1.map fun c =>
    if (0xFF21 ≤ c.val && c.val ≤ 0xFF3A) || (0xFF41 ≤ c.val && c.val ≤ 0xFF5A) then
      Char.ofNat (c.toNat - 0xFEE0)
    else c

def zhWidthNormalize : TypographyRule where
  id := "zh/width/normalize"
  name := [("zh", "全角半角规范化"), ("en", "Width normalization"), ("ru", "Нормализация ширины")]
  locale := .zh
  group := "width"
  enabled := true
  priority := 25
  apply := fun t _ => widthNormalize t

/-- The halfwidth → fullwidth punctuation map of `zhFullwidthPunctuation`,
in insertion order. -/
def zhPunctPairs : List (Char × Char) :=
  [(',', '，'), ('.', '。'), ('!', '！'), ('?', '？'), (';', '；'), (':', '：'),
   ('(', '（'), (')', '）')]

/-- `(CJK)half → $1full`. -/
def zhHalfAfterCjk (half full : Char) (t : List Char) : List Char :=
  gRepN (fun l =>
    match l with
    | a :: b :: _ => if cjkC a && b = half then some ([a, full], 2) else none
    | _ => none) t

/-- `half(CJK) → full$1` (only used for the opening parenthesis). -/
def zhHalfBeforeCjk (half full : Char) (t : List Char) : List Char :=
  gRepN (fun l =>
    match l with
    | b :: a :: _ => if b = half && cjkC a then some ([full, a], 2) else none
    | _ => none) t

/-- Convert halfwidth punctuation adjacent to CJK characters. -/
def zhFullwidthPunctuationApply (t : List Char) (_ : RuleContext) : List Char :=
  zhPunctPairs.foldl (fun acc p =>
    let r := zhHalfAfterCjk p.1 p.2 acc
    if p.1 = '(' then zhHalfBeforeCjk p.1 p.2 r else r) t

def zhFullwidthPunctuation : TypographyRule where
  id := "zh/punctuation/fullwidth"
  name := [("zh", "全角标点符号"), ("en", "Fullwidth punctuation"), ("ru", "Полноширинная пунктуация")]
  locale := .zh
  group := "punctuation"
  enabled := true
  priority := 30
  apply := zhFullwidthPunctuationApply

/-- `[\u201c"]([^"“”]*?)[\u201d"] → 「$1」`: the lazy content run extends
to the first quote-class character, which must then close. -/
def cornerQuoteRep (t : List Char) : List Char :=
  gRepN (fun l =>
    match l with
    | o :: rest =>
      if o = '“' || o = '"' then
        let content := rest.takeWhile fun c => !(c = '"' || c = '“' || c = '”')
        match rest[content.length]? with
        | some c =>
          if c = '”' || c = '"' then
            some ('「' :: content ++ ['」'], 2 + content.length)
          else none
        | none => none
      else none
    | [] => none) t

/-- `「([^「」]*?)「([^「」]*?)」([^「」]*?)」 → 「$1『$2』$3」`. -/
def cornerNestRep (t : List Char) : List Char :=
  let stop (c : Char) : Bool := c = '「' || c = '」'
  gRepN (fun l =>
    match l with
    | '「' :: rest =>
      let c1 := rest.takeWhile fun c => !stop c
      match rest[c1.length]? with
      | some '「' =>
        let rest2 := rest.drop (c1.length + 1)
        let c2 := rest2.takeWhile fun c => !stop c
        match rest2[c2.length]? with
        | some '」' =>
          let rest3 := rest2.drop (c2.length + 1)
          let c3 := rest3.takeWhile fun c => !stop c
          match rest3[c3.length]? with
          | some '」' =>
            some ('「' :: c1 ++ '『' :: c2 ++ '』' :: c3 ++ ['」'],
              1 + c1.length + 1 + c2.length + 1 + c3.length + 1)
          | _ => none
        | _ => none
      | _ => none
    | _ => none) t

/-- Chinese corner-bracket quotes. -/
def zhQuotesApply (t : List Char) (_ : RuleContext) : List Char :=
  cornerNestRep (cornerQuoteRep t)

def zhQuotes : TypographyRule where
  id := "zh/quotes/corner"
  name := [("zh", "引号「」『』"), ("en", "Chinese corner quotes"), ("ru", "Китайские кавычки")]
  locale := .zh
  group := "quotes"
  enabled := true
  priority := 31
  apply := zhQuotesApply

/-- The Latin-or-digit class `[a-zA-Z0-9]`. -/
def alnumC (c : Char) : Bool :=
  ('a' ≤ c && c ≤ 'z') || ('A' ≤ c && c ≤ 'Z') || ('0' ≤ c && c ≤ '9')

/-- Insert a space between characters of classes `p` and `q`. -/
def spacingRep (p q : Char → Bool) (t : List Char) : List Char :=
  gRepN (fun l =>
    match l with
    | a :: b :: _ => if p a && q b then some ([a, ' ', b], 2) else none
    | _ => none) t

/-- Add space between CJK and Latin/digit characters. -/
def zhCjkLatinSpacingApply (t : List Char) (_ : RuleContext) : List Char :=
  spacingRep alnumC cjkC (spacingRep cjkC alnumC t)

def zhCjkLatinSpacing : TypographyRule where
  id := "zh/spaces/cjk-latin"
  name := [("zh", "中西文间距"), ("en", "CJK-Latin spacing"), ("ru", "Пробелы между CJK и латиницей")]
  locale := .zh
  group := "spaces"
  enabled := true
  priority := 50
  apply := zhCjkLatinSpacingApply

/-- All registered Chinese rules, in catalog order. -/
def zhRules : List TypographyRule :=
  [zhWidthNormalize, zhFullwidthPunctuation, zhQuotes, zhCjkLatinSpacing]

/-! ## Japanese rules (`src/rules/ja/index.ts`) -/

/-- The `JA_CHAR` class: CJK ideographs plus hiragana and katakana. -/
def jaC (c : Char) : Bool :=
  cjkC c || (0x3040 ≤ c.val && c.val ≤ 0x309F) || (0x30A0 ≤ c.val && c.val ≤ 0x30FF)

/-- Japanese fullwidth punctuation `、 。 ！ ？` after Japanese characters
(the period with a `(?!\d)` lookahead). -/
def jaFullwidthPunctuationApply (t : List Char) (_ : RuleContext) : List Char :=
  let r1 := gRepN (fun l =>
    match l with
    | a :: ',' :: _ => if jaC a then some ([a, '、'], 2) else none
    | _ => none) t
  let r2 := gRepN (fun l =>
    match l with
    | a :: '.' :: rest =>
      if jaC a && !(rest.head?.elim false jsDigit) then some ([a, '。'], 2) else none
    | _ => none) r1
  let r3 := gRepN (fun l =>
    match l with
    | a :: '!' :: _ => if jaC a then some ([a, '！'], 2) else none
    | _ => none) r2
  gRepN (fun l =>
    match l with
    | a :: '?' :: _ => if jaC a then some ([a, '？'], 2) else none
    | _ => none) r3

def jaFullwidthPunctuation : TypographyRule where
  id := "ja/punctuation/fullwidth"
  name := [("ja", "全角句読点"), ("en", "Fullwidth punctuation"), ("ru", "Полноширинная пунктуация")]
  locale := .ja
  group := "punctuation"
  enabled := true
  priority := 30
  apply := jaFullwidthPunctuationApply

/-- Japanese corner-bracket quotes (same patterns as the Chinese rule). -/
def jaQuotesApply (t : List Char) (_ : RuleContext) : List Char :=
  cornerNestRep (cornerQuoteRep t)

def jaQuotes : TypographyRule where
  id := "ja/quotes/corner"
  name := [("ja", "鉤括弧「」『』"), ("en", "Japanese corner quotes"), ("ru", "Японские кавычки")]
  locale := .ja
  group := "quotes"
  enabled := true
  priority := 31
  apply := jaQuotesApply

/-- Add space between Japanese and Latin/digit characters. -/
def jaCjkLatinSpacingApply (t : List Char) (_ : RuleContext) : List Char :=
  spacingRep alnumC jaC (spacingRep jaC alnumC t)

def jaCjkLatinSpacing : TypographyRule where
  id := "ja/spaces/cjk-latin"
  name := [("ja", "和欧間スペース"), ("en", "Japanese-Latin spacing"),
    ("ru", "Пробелы между японским и латиницей")]
  locale := .ja
  group := "spaces"
  enabled := true
  priority := 50
  apply := jaCjkLatinSpacingApply

/-- Characters that must not start a line (kinsoku). -/
def jaNoStart : List Char :=
  "、。，．・：；！？）」』】〉》〕｝〙〛»’”".data

/-- Kinsoku: for each prohibited line-starting character, replace a plain
space before it with NBSP. -/
def jaKinsokuApply (t : List Char) (_ : RuleContext) : List Char :=
  jaNoStart.foldl (fun acc ch =>
    gRepN (fun l =>
      match l with
      | ' ' :: c :: _ => if c = ch then some ([NBSP, ch], 2) else none
      | _ => none) acc) t

def jaKinsoku : TypographyRule where
  id := "ja/punctuation/kinsoku"
  name := [("ja", "禁則処理"), ("en", "Kinsoku line break rules"), ("ru", "Кинсоку (правила переноса)")]
  locale := .ja
  group := "punctuation"
  enabled := true
  priority := 90
  apply := jaKinsokuApply

def jaWidthNormalize : TypographyRule where
  id := "ja/width/normalize"
  name := [("ja", "全角半角正規化"), ("en", "Width normalization"), ("ru", "Нормализация ширины")]
  locale := .ja
  group := "width"
  enabled := true
  priority := 25
  apply := fun t _ => widthNormalize t

/-- All registered Japanese rules, in catalog order. -/
def jaRules : List TypographyRule :=
  [jaWidthNormalize, jaFullwidthPunctuation, jaQuotes, jaCjkLatinSpacing, jaKinsoku]

/-! ## Rule registry and engine (`src/core/engine.ts`) -/

/-- All registered rules, in registration order. -/
def ALL_RULES : List TypographyRule :=
  commonRules ++ ruRules ++ enRules ++ frRules ++ zhRules ++ jaRules

/-- Stable insertion by priority, modelling JS `sort((a, b) => a.priority -
b.priority)` (JS `Array.prototype.sort` is stable). -/
def insertRule (r : TypographyRule) : List TypographyRule → List TypographyRule
  | [] => [r]
  | x :: xs => if r.priority ≤ x.priority then r :: x :: xs else x :: insertRule r xs

/-- Stable sort of rules by ascending priority. -/
def sortRules : List TypographyRule → List TypographyRule
  | [] => []
  | x :: xs => insertRule x (sortRules xs)

/-- Get rules applicable for a given locale, sorted by priority. -/
def getRulesForLocale (locale : Locale) : List TypographyRule :=
  sortRules (ALL_RULES.filter fun r =>
    decide (r.locale = locale) || decide (r.locale = Locale.common))

/-- Get all registered rules. -/
def getAllRules : List TypographyRule := ALL_RULES

/-- The effective enabled state
`settings.enabledRules[rule.id] ?? rule.enabled`. -/
def effectiveEnabled (s : TypographySettings) (r : TypographyRule) : Bool :=
  (lookupOverride r.id s.enabledRules).getD r.enabled

/-- The engine loop: for each rule in order, skip it when disabled, and
otherwise recompute the protected ranges against the current text, build a
fresh context and apply the rule. -/
def runRules (loc : Locale) (s : TypographySettings) :
    List TypographyRule → List Char → List Char
  | [], t => t
  | r :: rs, t =>
    if effectiveEnabled s r then
      runRules loc s rs (r.apply t ⟨loc, findProtectedRanges t⟩)
    else runRules loc s rs t

/-- Apply typography rules to a text string — the main entry point.
`settings.locale = none` models the `'auto'` choice. -/
def applyTypography (text : String) (settings : TypographySettings) : String :=
  if text.data = [] ∨ jsTrim text.data = [] then text
  else
    ⟨runRules (settings.locale.getD (detectLocale text)) settings
      (getRulesForLocale (settings.locale.getD (detectLocale text))) text.data⟩


/-! # Theorems about the claims -/

/-- **C6** — Locale detection thresholds on the spec's six example inputs:
Russian, Chinese, Japanese (kana presence wins over kanji), English for the
empty string, English for digits only, and Russian for mixed
Cyrillic-dominant text. -/
theorem detectLocale_spec_examples :
    detectLocale "Привет, как дела?" = Locale.ru ∧
    detectLocale "你好世界，这是一个测试" = Locale.zh ∧
    detectLocale "こんにちは世界、テストです" = Locale.ja ∧
    detectLocale "" = Locale.en ∧
    detectLocale "12345" = Locale.en ∧
    detectLocale "Привет world, как дела today?" = Locale.ru := by
  refine ⟨?_, ?_, ?_, ?_, ?_, ?_⟩ <;> decide

/-- **C7 counterexample** — For the input `"é"` every earlier detector
threshold is passed (nonzero total, no kana/CJK/Cyrillic), the French
diacritic count is 1 > 0 and the diacritic ratio `1/(1+0)` exceeds 0.03,
yet the Latin-letter count is zero and the detector returns `en`, not `fr`
as the claim states. -/
theorem detectLocale_fr_needs_latin_cex :
    (countChars "é".data).total ≠ 0 ∧
    ¬ 20 * (countChars "é".data).hiraganaKatakana > (countChars "é".data).total ∧
    ¬ 5 * (countChars "é".data).cjk > (countChars "é".data).total ∧
    ¬ 5 * (countChars "é".data).cyrillic > (countChars "é".data).total ∧
    0 < (countChars "é".data).french ∧
    100 * (countChars "é".data).french >
      3 * ((countChars "é".data).latin + (countChars "é".data).french) ∧
    (countChars "é".data).latin = 0 ∧
    detectLocale "é" ≠ Locale.fr := by
  decide

/-- **C7 (amended)** — When no earlier threshold fires, the French-diacritic
branch returns `fr` iff additionally the Latin-letter count is positive:
with `french > 0`, `latin > 0` and `100·french > 3·(latin+french)` the
detector returns `fr`. -/
theorem detectLocale_fr_branch (text : String)
    (h0 : (countChars text.data).total ≠ 0)
    (hja : ¬ 20 * (countChars text.data).hiraganaKatakana > (countChars text.data).total)
    (hzh : ¬ 5 * (countChars text.data).cjk > (countChars text.data).total)
    (hru : ¬ 5 * (countChars text.data).cyrillic > (countChars text.data).total)
    (hfr : 0 < (countChars text.data).french)
    (hlat : 0 < (countChars text.data).latin)
    (hratio : 100 * (countChars text.data).french >
      3 * ((countChars text.data).latin + (countChars text.data).french)) :
    detectLocale text = Locale.fr := by
  unfold detectLocale
  rw [if_neg h0, if_neg hja, if_neg hzh, if_neg hru, if_pos ⟨hfr, hlat, hratio⟩]

/-- Witness for the amended C7 theorem at the concrete input `"café"`. -/
theorem detectLocale_fr_branch_witness : detectLocale "café" = Locale.fr :=
  detectLocale_fr_branch "café" (by decide) (by decide) (by decide) (by decide)
    (by decide) (by decide) (by decide)

/-- `quoteDepths` unfolding on a cons cell. -/
theorem quoteDepths_cons (d : Int) (b c : Char) (rest : List Char) :
    quoteDepths d b (c :: rest) =
      if c = '"' then (quoteStep d b).2 :: quoteDepths (quoteStep d b).2 c rest
      else d :: quoteDepths d c rest := rfl

/-- One marker step keeps the depth nonnegative. -/
theorem quoteStep_nonneg (d : Int) (b : Char) (hd : 0 ≤ d) :
    0 ≤ (quoteStep d b).2 := by
  unfold quoteStep
  split
  · simpa using le_trans hd (by omega)
  · split
    · simp
    · rename_i h
      simp only []
      omega

/-- The depth after every step of the quote scan stays nonnegative,
whatever depth `0 ≤ d` and previous character the scan starts from. -/
theorem quoteDepths_nonneg (l : List Char) :
    ∀ d b, 0 ≤ d → ∀ x ∈ quoteDepths d b l, 0 ≤ x := by
  induction l with
  | nil => intro d b _ x hx; simp [quoteDepths] at hx
  | cons c rest ih =>
    intro d b hd x hx
    rw [quoteDepths_cons] at hx
    by_cases hc : c = '"'
    · rw [if_pos hc] at hx
      rcases List.mem_cons.mp hx with h | h
      · exact h ▸ quoteStep_nonneg d b hd
      · exact ih _ _ (quoteStep_nonneg d b hd) x h
    · rw [if_neg hc] at hx
      rcases List.mem_cons.mp hx with h | h
      · exact h ▸ hd
      · exact ih _ _ hd x h

/-- An unmatched closing marker at depth 0 emits `»` and leaves depth 0. -/
theorem quoteStep_unmatched (before : Char) (h1 : isOpeningCtx before = false)
    (h2 : before ≠ '«') (h3 : before ≠ '„') : quoteStep 0 before = ('»', 0) := by
  unfold quoteStep
  rw [if_neg (by simp [h1, h2, h3]), if_pos (by norm_num)]

/-- **C3** — In the Russian quote reclassifier the internal depth counter is
nonnegative after every step of the left-to-right scan, and an unmatched
closing marker at depth 0 is emitted as the outer closing glyph `»`, leaving
the depth at 0 (so the scan state, and with it the classification of every
subsequent marker, is exactly as if the unmatched closer were balanced). -/
theorem ruQuotes_depth_invariant :
    (∀ t : List Char, ∀ x ∈ quoteDepths 0 ' ' (quoteNormalize t), 0 ≤ x) ∧
    (∀ before : Char, isOpeningCtx before = false → before ≠ '«' → before ≠ '„' →
      quoteStep 0 before = ('»', 0)) ∧
    (∀ (before : Char) (rest : List Char), isOpeningCtx before = false →
      before ≠ '«' → before ≠ '„' →
      quoteScanGo 0 before ('"' :: rest) = '»' :: quoteScanGo 0 '"' rest) := by
  refine ⟨fun t => quoteDepths_nonneg _ 0 ' ' le_rfl, quoteStep_unmatched, ?_⟩
  intro before rest h1 h2 h3
  simp [quoteScanGo, quoteStep_unmatched before h1 h2 h3]

/-- Witness for C3: on the input `"а"б"` the depth trace is `[1, 1, 0]` and
an unmatched closer after `б` at depth 0 yields `»` with depth 0. -/
theorem ruQuotes_depth_invariant_witness :
    ((1 : Int) ∈ quoteDepths 0 ' ' (quoteNormalize "\"аб\"".data) ∧ 0 ≤ (1 : Int)) ∧
    quoteStep 0 'б' = ('»', 0) :=
  ⟨⟨by decide, ruQuotes_depth_invariant.1 "\"аб\"".data 1 (by decide)⟩,
    ruQuotes_depth_invariant.2.1 'б' (by decide) (by decide) (by decide)⟩

/-- **C4 (code evaluated at the failing input)** — After normalization the
scanned array contains only straight quotes, so the
`before === '«' || before === '„'` check never fires: for the input
`" ""а""` (two straight quotes following whitespace) the second marker is
classified as *closing* and the output is `" «»а»»"`, not an outer opener
followed by an inner opener. -/
theorem ruQuotes_adjacent_openers_failing :
    (⟨ruQuotesApply " \"\"а\"\"".data ⟨Locale.ru, []⟩⟩ : String) = " «»а»»" := by
  decide


/-- **C9** — For every settings value, `applyTypography` on an empty or
all-whitespace text returns it unchanged (the no-op fast path), regardless
of locale or enabled rules. -/
theorem applyTypography_whitespace_noop (text : String) (s : TypographySettings)
    (h : ∀ c ∈ text.data, jsSpace c = true) : applyTypography text s = text := by
  have hgen : ∀ l : List Char, (∀ c ∈ l, jsSpace c = true) →
      l.dropWhile jsSpace = [] := by
    intro l
    induction l with
    | nil => intro _; rfl
    | cons c rest ih =>
      intro hl
      rw [List.dropWhile_cons_of_pos (hl c (by simp))]
      exact ih fun x hx => hl x (by simp [hx])
  have h1 : text.data.dropWhile jsSpace = [] := hgen _ h
  have h2 : jsTrim text.data = [] := by simp [jsTrim, h1]
  unfold applyTypography
  rw [if_pos (Or.inr h2)]

/-- Witness for C9 at the concrete whitespace input `"  \t "`. -/
theorem applyTypography_whitespace_noop_witness :
    applyTypography "  \t " ⟨some Locale.en, [("ru/yo/basic", true)]⟩ = "  \t " :=
  applyTypography_whitespace_noop _ _ (by decide)

/-- **C5** — `applyTypography` is idempotent on already-correct text: if the
pipeline leaves a text unchanged, applying it twice equals applying it once;
and the already-correct Russian example is indeed left unchanged. -/
theorem applyTypography_idempotent_on_correct :
    (∀ (t : String) (s : TypographySettings), applyTypography t s = t →
      applyTypography (applyTypography t s) s = applyTypography t s) ∧
    applyTypography "Он сказал «привет»" ⟨some Locale.ru, []⟩ = "Он сказал «привет»" := by
  constructor
  · intro t s h
    rw [h]
    exact h
  · decide

/-- Witness for C5: the double application on the concrete example. -/
theorem applyTypography_idempotent_on_correct_witness :
    applyTypography (applyTypography "Он сказал «привет»" ⟨some Locale.ru, []⟩)
      ⟨some Locale.ru, []⟩ = applyTypography "Он сказал «привет»" ⟨some Locale.ru, []⟩ :=
  applyTypography_idempotent_on_correct.1 _ _ applyTypography_idempotent_on_correct.2

/-- Refinement reference for C2, following the spec's words: select exactly
the rules whose effective enabled state
(`settings.enabledRules[rule.id] ?? rule.enabled`) is true, and fold the
text through all of them in order (no per-rule skip inside the fold). -/
def applyEnabledRulesOnly (text : String) (settings : TypographySettings) : String :=
  if text.data = [] ∨ jsTrim text.data = [] then text
  else
    ⟨((getRulesForLocale (settings.locale.getD (detectLocale text))).filter
        (effectiveEnabled settings)).foldl
      (fun cur r => r.apply cur
        ⟨settings.locale.getD (detectLocale text), findProtectedRanges cur⟩) text.data⟩

/-- The engine loop equals the filter-then-fold formulation. -/
theorem runRules_eq_foldl_filter (loc : Locale) (s : TypographySettings) :
    ∀ (rules : List TypographyRule) (t : List Char),
      runRules loc s rules t = (rules.filter (effectiveEnabled s)).foldl
        (fun cur r => r.apply cur ⟨loc, findProtectedRanges cur⟩) t := by
  intro rules
  induction rules with
  | nil => intro t; rfl
  | cons r rs ih =>
    intro t
    by_cases h : effectiveEnabled s r = true
    · simp only [runRules, if_pos h, List.filter_cons_of_pos h, List.foldl_cons]
      exact ih _
    · simp only [runRules, if_neg h,
        List.filter_cons_of_neg (by simpa using h)]
      exact ih _

/-- **C2** — A rule is applied iff its effective enabled state
`settings.enabledRules[rule.id] ?? rule.enabled` is true: the engine equals
the filter-then-fold reference for every text and settings; and with the
override `ru/yo/basic ↦ false` the yo-fication substitution does not happen
(`"Еще пример"` is returned verbatim), while with no override the shipped
default applies it (`"Ещё пример"`). -/
theorem applyTypography_enabled_iff :
    (∀ (text : String) (s : TypographySettings),
      applyTypography text s = applyEnabledRulesOnly text s) ∧
    applyTypography "Еще пример" ⟨some Locale.ru, [("ru/yo/basic", false)]⟩ = "Еще пример" ∧
    applyTypography "Еще пример" ⟨some Locale.ru, []⟩ = "Ещё пример" := by
  refine ⟨?_, by decide, by decide⟩
  intro text s
  simp only [applyTypography, applyEnabledRulesOnly, runRules_eq_foldl_filter]

/-- **C10 helpers** — membership through the stable insertion sort. -/
theorem mem_insertRule {x r : TypographyRule} {l : List TypographyRule} :
    x ∈ insertRule r l ↔ x = r ∨ x ∈ l := by
  induction l with
  | nil => simp [insertRule]
  | cons y ys ih =>
    unfold insertRule
    split
    · simp [List.mem_cons]
    · simp only [List.mem_cons, ih]
      tauto

theorem mem_sortRules {x : TypographyRule} {l : List TypographyRule} :
    x ∈ sortRules l ↔ x ∈ l := by
  induction l with
  | nil => simp [sortRules]
  | cons y ys ih => simp [sortRules, mem_insertRule, ih]

theorem mem_getRulesForLocale_mem_all {r : TypographyRule} {loc : Locale}
    (h : r ∈ getRulesForLocale loc) : r ∈ ALL_RULES :=
  (List.mem_filter.mp (mem_sortRules.mp h)).1

/-- Adding an override for a key that is no processed rule's id leaves the
whole engine loop unchanged. -/
theorem runRules_extra_key (loc : Locale) (s : TypographySettings) (key : String)
    (b : Bool) :
    ∀ (rules : List TypographyRule) (t : List Char), (∀ r ∈ rules, r.id ≠ key) →
      runRules loc ⟨s.locale, (key, b) :: s.enabledRules⟩ rules t =
        runRules loc s rules t := by
  intro rules
  induction rules with
  | nil => intro t _; rfl
  | cons r rs ih =>
    intro t hr
    have hid : ¬ (key = r.id) := fun hk => hr r (by simp) hk.symm
    have heff : effectiveEnabled ⟨s.locale, (key, b) :: s.enabledRules⟩ r =
        effectiveEnabled s r := by
      simp [effectiveEnabled, lookupOverride, if_neg hid]
    have hrest : ∀ x ∈ rs, x.id ≠ key := fun x hx => hr x (by simp [hx])
    simp only [runRules, heff]
    by_cases h : effectiveEnabled s r = true
    · rw [if_pos h, if_pos h, ih _ hrest]
    · rw [if_neg h, if_neg h, ih _ hrest]

/-- **C10** — An entry in `settings.enabledRules` whose key is not the id of
any registered rule never matches any rule and has no effect on the output
of `applyTypography`, for every text and settings. -/
theorem applyTypography_unknown_rule_id (text : String) (s : TypographySettings)
    (key : String) (b : Bool) (h : key ∉ ALL_RULES.map fun r => r.id) :
    applyTypography text ⟨s.locale, (key, b) :: s.enabledRules⟩ =
      applyTypography text s := by
  unfold applyTypography
  by_cases hg : text.data = [] ∨ jsTrim text.data = []
  · rw [if_pos hg, if_pos hg]
  · rw [if_neg hg, if_neg hg]
    exact congrArg String.mk
      (runRules_extra_key (s.locale.getD (detectLocale text)) s key b _ text.data
        fun r hr hEq => h (List.mem_map.mpr ⟨r, mem_getRulesForLocale_mem_all hr, hEq⟩))

/-- Witness for C10 at a concrete unknown id. -/
theorem applyTypography_unknown_rule_id_witness :
    ("no/such/rule" ∉ ALL_RULES.map fun r => r.id) ∧
    applyTypography "Привет, мир!" ⟨none, [("no/such/rule", false)]⟩ =
      applyTypography "Привет, мир!" ⟨none, []⟩ :=
  ⟨by decide,
    applyTypography_unknown_rule_id "Привет, мир!" ⟨none, []⟩ "no/such/rule" false
      (by decide)⟩


/-- A list of length ≥ 3 dropped to its last two elements. -/
theorem drop_pred_pred {l : List (List Char)} (h : 3 ≤ l.length) :
    l.drop (l.length - 2) = [l.getD (l.length - 2) [], l.getD (l.length - 1) []] := by
  have h2 : l.length - 2 < l.length := by omega
  have h1 : l.length - 1 < l.length := by omega
  rw [List.drop_eq_getElem_cons h2]
  have : l.length - 2 + 1 = l.length - 1 := by omega
  rw [this, List.drop_eq_getElem_cons h1]
  have : l.length - 1 + 1 = l.length := by omega
  rw [this, List.drop_length]
  rw [List.getD_eq_getElem l [] h2, List.getD_eq_getElem l [] h1]

/-- **C8** — The anti-orphan rule processes each newline-separated line
independently; a line with fewer than 3 space-separated tokens (of its
trailing-whitespace-trimmed text) is returned unchanged; a line with at
least 3 tokens becomes: all but the last two tokens joined by spaces, a
space, the second-to-last token, a non-breaking space, the last token, and
the trailing whitespace.  The spec example holds concretely. -/
theorem nbspOrphan_per_line :
    (∀ (t : List Char) (ctx : RuleContext),
      nbspOrphanApply t ctx = joinWithChar '\n' ((splitOnChar '\n' t).map orphanLine)) ∧
    (∀ line : List Char, (splitOnChar ' ' (jsTrimEnd line)).length < 3 →
      orphanLine line = line) ∧
    (∀ line : List Char, 3 ≤ (splitOnChar ' ' (jsTrimEnd line)).length →
      orphanLine line =
        joinWithChar ' ' ((splitOnChar ' ' (jsTrimEnd line)).take
          ((splitOnChar ' ' (jsTrimEnd line)).length - 2)) ++
        ' ' :: ((splitOnChar ' ' (jsTrimEnd line)).getD
            ((splitOnChar ' ' (jsTrimEnd line)).length - 2) [] ++
          NBSP :: (splitOnChar ' ' (jsTrimEnd line)).getD
            ((splitOnChar ' ' (jsTrimEnd line)).length - 1) []) ++
        line.drop (jsTrimEnd line).length) ∧
    (⟨nbspOrphanApply "Это простой тест для проверки".data ⟨Locale.common, []⟩⟩ : String) =
      "Это простой тест для\u00A0проверки" := by
  refine ⟨fun t ctx => rfl, ?_, ?_, by decide⟩
  · intro line h
    unfold orphanLine
    rw [if_pos h]
  · intro line h
    unfold orphanLine
    rw [if_neg (by omega)]
    rw [drop_pred_pred h]
    simp [joinWithChar]

/-- Witness for C8: a two-token line is returned unchanged. -/
theorem nbspOrphan_per_line_witness :
    orphanLine "Два слова".data = "Два слова".data :=
  nbspOrphan_per_line.2.1 "Два слова".data (by decide)


/-! ## Protected-range invariance of `ruDecimals` (C1) -/

theorem mem_insertRange {x r : Nat × Nat} {l : List (Nat × Nat)} :
    x ∈ insertRange r l ↔ x = r ∨ x ∈ l := by
  induction l with
  | nil => simp [insertRange]
  | cons y ys ih =>
    unfold insertRange
    split
    · simp [List.mem_cons]
    · simp only [List.mem_cons, ih]
      tauto

theorem mem_sortRanges {x : Nat × Nat} {l : List (Nat × Nat)} :
    x ∈ sortRanges l ↔ x ∈ l := by
  induction l with
  | nil => simp [sortRanges]
  | cons y ys ih => simp [sortRanges, mem_insertRange, ih]

theorem isProtected_iff {pos : Nat} {ranges : List (Nat × Nat)} :
    isProtected pos ranges = true ↔ ∃ r ∈ ranges, r.1 ≤ pos ∧ pos < r.2 := by
  simp [isProtected, List.any_eq_true]

theorem isProtected_of_mem {pos : Nat} {r : Nat × Nat} {ranges : List (Nat × Nat)}
    (h : r ∈ ranges) (h1 : r.1 ≤ pos) (h2 : pos < r.2) :
    isProtected pos ranges = true :=
  isProtected_iff.mpr ⟨r, h, h1, h2⟩

/-- Splitting membership in the protected-range list by source pattern. -/
theorem mem_findProtectedRanges {t : List Char} {x : Nat × Nat} :
    x ∈ findProtectedRanges t ↔
      x ∈ execPattern urlM t ∨ x ∈ execPattern emailM t ∨ x ∈ execPattern ipM t ∨
      x ∈ execPattern verM t ∨ x ∈ execPattern hexM t := by
  simp [findProtectedRanges, mem_sortRanges, List.mem_append, or_assoc]

/-- The head of a dropped list is the indexed element. -/
theorem head?_drop_eq (t : List Char) (s : Nat) : (t.drop s).head? = t[s]? := by
  induction t generalizing s with
  | nil => simp
  | cons c rest ih =>
    cases s with
    | zero => simp
    | succ s => simpa using ih s

theorem countWhile_cons_pos {p : Char → Bool} {c : Char} {l : List Char}
    (h : p c = true) : countWhile p (c :: l) = countWhile p l + 1 := by
  simp [countWhile, List.takeWhile_cons_of_pos h]

theorem countWhile_pos_head {p : Char → Bool} {l : List Char}
    (h : 1 ≤ countWhile p l) : ∃ c, l.head? = some c ∧ p c = true := by
  cases l with
  | nil => simp [countWhile] at h
  | cons c rest =>
    by_cases hc : p c = true
    · exact ⟨c, rfl, hc⟩
    · rw [countWhile, List.takeWhile_cons_of_neg (by simp [hc])] at h
      simp at h

/-- Every span produced by the exec loop starts at or after the scan
position and is an actual match of the pattern. -/
theorem execLoop_mem {m : List Char → Nat → Option Nat} {t : List Char} :
    ∀ {fuel pos s e}, (s, e) ∈ execLoop m t fuel pos →
      pos ≤ s ∧ m t s = some (e - s) := by
  intro fuel
  induction fuel with
  | zero => intro pos s e h; simp [execLoop] at h
  | succ fuel ih =>
    intro pos s e h
    unfold execLoop at h
    cases hm : m t pos with
    | some n =>
      rw [hm] at h
      rcases List.mem_cons.mp h with h | h
      · rcases Prod.mk.injEq .. ▸ h with ⟨hs, he⟩
        subst hs
        subst he
        exact ⟨le_rfl, by rw [hm]; congr 1; omega⟩
      · have := ih h
        exact ⟨by omega, this.2⟩
    | none =>
      rw [hm] at h
      by_cases hl : pos < t.length
      · rw [if_pos hl] at h
        have := ih h
        exact ⟨by omega, this.2⟩
      · rw [if_neg hl] at h
        simp at h

/-- If the pattern also matches one position to the left of a produced span
(and every match is non-empty), that left position lies inside an earlier
produced span or before the scan start. -/
theorem execLoop_cover {m : List Char → Nat → Option Nat} {t : List Char}
    (hmin : ∀ q k, m t q = some k → 1 ≤ k) :
    ∀ {fuel pos s e}, (s, e) ∈ execLoop m t fuel pos →
      ∀ {k}, m t (s - 1) = some k → 1 ≤ s →
      s - 1 < pos ∨ ∃ p q, (p, q) ∈ execLoop m t fuel pos ∧ p ≤ s - 1 ∧ s - 1 < q := by
  intro fuel
  induction fuel with
  | zero => intro pos s e h; simp [execLoop] at h
  | succ fuel ih =>
    intro pos s e h k hk hs
    cases hm : m t pos with
    | some n =>
      have hunf : execLoop m t (fuel + 1) pos =
          (pos, pos + n) :: execLoop m t fuel (pos + n) := by
        simp only [execLoop, hm]
      rw [hunf] at h ⊢
      rcases List.mem_cons.mp h with heq | htl
      · rcases Prod.mk.injEq .. ▸ heq with ⟨hseq, _⟩
        subst hseq
        left
        omega
      · rcases ih htl hk hs with hlt | ⟨p, q, hpq, hp1, hp2⟩
        · have hps := (execLoop_mem htl).1
          have hn : 1 ≤ n := hmin pos n hm
          right
          exact ⟨pos, pos + n, List.mem_cons_self .., by omega, by omega⟩
        · right
          exact ⟨p, q, List.mem_cons_of_mem _ hpq, hp1, hp2⟩
    | none =>
      by_cases hl : pos < t.length
      · have hunf : execLoop m t (fuel + 1) pos = execLoop m t fuel (pos + 1) := by
          simp only [execLoop, hm, if_pos hl]
        rw [hunf] at h ⊢
        rcases ih h hk hs with hlt | hcov
        · rcases Nat.lt_succ_iff_lt_or_eq.mp hlt with h1 | h1
          · exact Or.inl h1
          · rw [h1] at hk
            rw [hk] at hm
            cases hm
        · exact Or.inr hcov
      · have hunf : execLoop m t (fuel + 1) pos = [] := by
          simp only [execLoop, hm, if_neg hl]
        rw [hunf] at h
        simp at h

/-- Top level: the position left of a produced span, if itself matchable,
is covered by a produced span. -/
theorem execPattern_cover {m : List Char → Nat → Option Nat} {t : List Char}
    (hmin : ∀ q k, m t q = some k → 1 ≤ k) {s e : Nat}
    (h : (s, e) ∈ execPattern m t) {k : Nat} (hk : m t (s - 1) = some k)
    (hs : 1 ≤ s) : ∃ p q, (p, q) ∈ execPattern m t ∧ p ≤ s - 1 ∧ s - 1 < q := by
  rcases execLoop_cover hmin h hk hs with hlt | hcov
  · omega
  · exact hcov


/-- A URL match starts with `h`. -/
theorem urlM_start {t : List Char} {s n : Nat} (h : urlM t s = some n) :
    t[s]? = some 'h' := by
  rw [← head?_drop_eq]
  simp only [urlM] at h
  split at h
  · cases h
  · next heq =>
    split at heq
    · next hd => simp [hd]
    · next hd => simp [hd]
    · cases heq

/-- An IPv4 match starts with a digit. -/
theorem ipM_start {t : List Char} {s n : Nat} (h : ipM t s = some n) :
    ∃ d, t[s]? = some d ∧ jsDigit d = true := by
  simp only [ipM] at h
  split at h
  · next hc =>
    obtain ⟨d, hd, hdig⟩ := countWhile_pos_head hc.2.1
    exact ⟨d, by rw [← head?_drop_eq]; exact hd, hdig⟩
  · cases h

/-- A version match starts with `v` or a digit. -/
theorem verM_start {t : List Char} {s n : Nat} (h : verM t s = some n) :
    t[s]? = some 'v' ∨ ∃ d, t[s]? = some d ∧ jsDigit d = true := by
  rw [← head?_drop_eq]
  by_cases hv : (t.drop s).head? = some 'v'
  · exact Or.inl hv
  · right
    simp only [verM, if_neg hv, List.drop_zero] at h
    split at h
    · next hc =>
      obtain ⟨d, hd, hdig⟩ := countWhile_pos_head hc.2.1
      exact ⟨d, hd, hdig⟩
    · cases h

/-- A hex-literal match starts with `0`. -/
theorem hexM_start {t : List Char} {s n : Nat} (h : hexM t s = some n) :
    t[s]? = some '0' := by
  rw [← head?_drop_eq]
  simp only [hexM] at h
  split at h
  · next heq => simp [heq]
  · cases h


/-- An email match is non-empty. -/
theorem emailM_min (t : List Char) : ∀ q k, emailM t q = some k → 1 ≤ k := by
  intro q k h
  simp only [emailM] at h
  split at h
  · cases h
  · split at h
    · split at h
      · cases h
        omega
      · cases h
    · cases h

/-- A digit is an email local-part character. -/
theorem jsDigit_emailC1 {c : Char} (h : jsDigit c = true) : emailC1 c = true := by
  simp only [emailC1, jsWord, jsDigit] at h ⊢
  simp [h]

/-- If the character before an email match is a local-part character, the
pattern also matches one position earlier (with one more character). -/
theorem emailM_extend {t : List Char} {p n : Nat} {c : Char}
    (hp : 1 ≤ p) (hcm : t[p-1]? = some c) (hc : emailC1 c = true)
    (h : emailM t p = some n) : emailM t (p-1) = some (n + 1) := by
  have hlt : p - 1 < t.length := by
    have := List.getElem?_eq_some.mp hcm
    exact this.1
  have hdrop : t.drop (p - 1) = c :: t.drop p := by
    have hstep := List.drop_eq_getElem_cons hlt
    rw [(List.getElem?_eq_some.mp hcm).2] at hstep
    have hq : p - 1 + 1 = p := by omega
    rwa [hq] at hstep
  simp only [emailM] at h ⊢
  rw [hdrop, countWhile_cons_pos hc, if_neg (by omega), List.drop_succ_cons]
  split at h
  · cases h
  · split at h
    · next s2 heq =>
      split at h
      · next m hm =>
        cases h
        congr 1
        omega
      · cases h
    · cases h

/-- If a matched `digit.digit` has its dot inside a protected range, the
match offset itself is protected: no protected range can start at a dot
preceded by a digit, except when that digit already closes an earlier email
range. -/
theorem protected_dot_left {t : List Char} {pos : Nat} {d1 : Char}
    (h1 : t[pos]? = some d1) (hd1 : jsDigit d1 = true) (h2 : t[pos+1]? = some '.')
    (hp : isProtected (pos+1) (findProtectedRanges t) = true) :
    isProtected pos (findProtectedRanges t) = true := by
  rcases isProtected_iff.mp hp with ⟨⟨s, e⟩, hmem, hs, he⟩
  by_cases hsp : s ≤ pos
  · exact isProtected_of_mem hmem hsp (by simp at he ⊢; omega)
  · have hseq : s = pos + 1 := by simp at hs; omega
    subst hseq
    rcases mem_findProtectedRanges.mp hmem with hurl | hemail | hip | hver | hhex
    · have hx := urlM_start (execLoop_mem hurl).2
      rw [h2] at hx
      simp at hx
    · have hm := (execLoop_mem hemail).2
      have hext := emailM_extend (by omega) (by simpa using h1)
        (jsDigit_emailC1 hd1) hm
      obtain ⟨p, q, hpq, hp1, hp2⟩ :=
        execPattern_cover (emailM_min t) hemail hext (by omega)
      refine isProtected_of_mem
        (mem_findProtectedRanges.mpr (Or.inr (Or.inl hpq))) ?_ ?_ <;>
        simp at hp1 hp2 ⊢ <;> omega
    · obtain ⟨d, hd, hdig⟩ := ipM_start (execLoop_mem hip).2
      rw [h2] at hd
      cases hd
      exact absurd hdig (by decide)
    · rcases verM_start (execLoop_mem hver).2 with hv | ⟨d, hd, hdig⟩
      · rw [h2] at hv
        simp at hv
      · rw [h2] at hd
        cases hd
        exact absurd hdig (by decide)
    · have hx := hexM_start (execLoop_mem hhex).2
      rw [h2] at hx
      simp at hx


theorem drop_succ_of_drop {t : List Char} {pos : Nat} {c : Char} {rest : List Char}
    (h : t.drop pos = c :: rest) : t.drop (pos + 1) = rest := by
  have h2 := List.drop_drop 1 pos t
  rw [h] at h2
  simpa using h2.symm

/-- Inside any protected range, `ruDecimals`' scan leaves the text
untouched: only an *unprotected* `digit.digit` match changes a character
(its dot), and by `protected_dot_left` a protected dot forces a protected
match offset. -/
theorem decGo_protected (t : List Char) :
    ∀ (pos : Nat) (rest : List Char), rest = t.drop pos →
      ∀ j, isProtected (pos + j) (findProtectedRanges t) = true →
        (decGo (findProtectedRanges t) t pos rest)[j]? = rest[j]? := by
  intro pos rest
  induction pos, rest using decGo.induct (findProtectedRanges t) t with
  | case1 pos => intro _ j _; rfl
  | case2 pos d1 d2 rest2 hdig hkeep ih =>
    intro hdrop j hj
    have hdrop2 : rest2 = t.drop (pos + 3) := by
      have e1 := drop_succ_of_drop hdrop.symm
      have e2 := drop_succ_of_drop e1
      have e3 := drop_succ_of_drop e2
      exact e3.symm
    rw [decGo]
    rw [if_pos hdig, if_pos hkeep]
    match j with
    | 0 => simp
    | 1 => simp
    | 2 => simp
    | j + 3 =>
      simp only [List.getElem?_cons_succ]
      have : pos + (j + 3) = pos + 3 + j := by omega
      rw [this] at hj
      exact ih hdrop2 j hj
  | case3 pos d1 d2 rest2 hdig hkeep ih =>
    intro hdrop j hj
    have hdrop2 : rest2 = t.drop (pos + 3) := by
      have e1 := drop_succ_of_drop hdrop.symm
      have e2 := drop_succ_of_drop e1
      have e3 := drop_succ_of_drop e2
      exact e3.symm
    rw [decGo]
    rw [if_pos hdig, if_neg hkeep]
    match j with
    | 0 => simp
    | 1 =>
      exfalso
      apply hkeep
      left
      have h1 : t[pos]? = some d1 := by
        rw [← head?_drop_eq, ← hdrop]
        rfl
      have h2 : t[pos + 1]? = some '.' := by
        rw [← head?_drop_eq, drop_succ_of_drop hdrop.symm]
        rfl
      have : pos + 1 = pos + 1 := rfl
      exact protected_dot_left h1 hdig.1 h2 (by simpa using hj)
    | 2 => simp
    | j + 3 =>
      simp only [List.getElem?_cons_succ]
      have : pos + (j + 3) = pos + 3 + j := by omega
      rw [this] at hj
      exact ih hdrop2 j hj
  | case4 pos d1 d2 rest2 hdig ih =>
    intro hdrop j hj
    rw [decGo]
    rw [if_neg hdig]
    match j with
    | 0 => simp
    | j + 1 =>
      simp only [List.getElem?_cons_succ]
      have : pos + (j + 1) = pos + 1 + j := by omega
      rw [this] at hj
      exact ih (drop_succ_of_drop hdrop.symm).symm j hj
  | case5 pos c rest hne ih =>
    intro hdrop j hj
    have heq : decGo (findProtectedRanges t) t pos (c :: rest) =
        c :: decGo (findProtectedRanges t) t (pos + 1) rest := by
      rw [decGo]
      exact hne
    rw [heq]
    match j with
    | 0 => simp
    | j + 1 =>
      simp only [List.getElem?_cons_succ]
      have : pos + (j + 1) = pos + 1 + j := by omega
      rw [this] at hj
      exact ih (drop_succ_of_drop hdrop.symm).symm j hj


/-- **C1** — Protected-range invariance of the decimal-comma rule: for every
text, every position inside a protected range (URL, email, IPv4, version,
hex literal) is left unchanged by `ruDecimals` applied with the ranges of
that text — in particular every digit and dot inside a protected literal.
Concretely, `"192.168.1.1"` passes the Russian pipeline unchanged while
`"3.14"` becomes `"3,14"`. -/
theorem ruDecimals_protected_invariance :
    (∀ (t : List Char) (i : Nat),
      isProtected i (findProtectedRanges t) = true →
      (ruDecimalsApply t ⟨Locale.ru, findProtectedRanges t⟩)[i]? = t[i]?) ∧
    applyTypography "192.168.1.1" ⟨some Locale.ru, []⟩ = "192.168.1.1" ∧
    applyTypography "3.14" ⟨some Locale.ru, []⟩ = "3,14" := by
  refine ⟨?_, by decide, by decide⟩
  intro t i hi
  have h := decGo_protected t 0 t (by simp) i (by simpa using hi)
  simpa [ruDecimalsApply] using h

/-- Witness for C1: the dot at offset 3 of `"192.168.1.1"` is protected and
unchanged. -/
theorem ruDecimals_protected_invariance_witness :
    isProtected 3 (findProtectedRanges "192.168.1.1".data) = true ∧
    (ruDecimalsApply "192.168.1.1".data
        ⟨Locale.ru, findProtectedRanges "192.168.1.1".data⟩)[3]? =
      "192.168.1.1".data[3]? :=
  ⟨by decide, ruDecimals_protected_invariance.1 _ 3 (by decide)⟩

end TT
